import Mathlib

/-!
# BrainfuckJIT: folder and emitter

A shallow embedding of `src/main.cpp`:

* `translate_command` (the folder): source bytes to run-length `COMMAND`s;
* `translate_asm` (the emitter): `COMMAND`s to x86-64 machine code bytes, with
  back-patching of the `[` / `]` jump displacements.

Conventions of the embedding.

* A C++ `char` of the source string and a value of `enum COMMAND_TYPE` are both
  represented by the character code, a `Nat` (`'+'` is `43`).
* `int value` is an `Int`; `unsigned char` buffer elements are `Nat`s reduced
  modulo `256` where the C++ code converts to `unsigned char`.
* `std::vector<COMMAND*>` and `std::vector<unsigned char>` are `List`s in
  vector order; `std::stack<unsigned long>` is a `List` whose head is the top.
* `assert` failure, and `top()`/`pop()` on an empty stack or an out-of-range
  `code[...]`, are the result `none`.
-/

namespace BrainfuckJIT

/-! ## Data model -/

/-- The enum `COMMAND_TYPE`, represented by its underlying character code. -/
abbrev COMMAND_TYPE := Nat

namespace COMMAND_TYPE

/-- The code of `'>'`. -/
abbrev DP_INC : COMMAND_TYPE := 62
/-- The code of `'<'`. -/
abbrev DP_DEC : COMMAND_TYPE := 60
/-- The code of `'+'`. -/
abbrev DATA_INC : COMMAND_TYPE := 43
/-- The code of `'-'`. -/
abbrev DATA_DEC : COMMAND_TYPE := 45
/-- The code of `','`. -/
abbrev INPUT : COMMAND_TYPE := 44
/-- The code of `'.'`. -/
abbrev OUTPUT : COMMAND_TYPE := 46
/-- The code of `'['`. -/
abbrev LOOP_START : COMMAND_TYPE := 91
/-- The code of `']'`. -/
abbrev LOOP_END : COMMAND_TYPE := 93

end COMMAND_TYPE

open COMMAND_TYPE

/-- The struct `COMMAND`: one single command. -/
structure COMMAND where
  /-- The kind of the command (a character code). -/
  type : COMMAND_TYPE
  /-- The run length (`int value`). -/
  value : Int
deriving DecidableEq

/-! ## The folder: `translate_command` -/

/-- One iteration of the `for` loop of `translate_command`, on the character `c`
with the vector `tmp` built so far. -/
def translate_command_step (tmp : List COMMAND) (c : Nat) : List COMMAND :=
  match tmp.getLast? with
  | some last =>
    if (c = DATA_INC ∨ c = DATA_DEC ∨ c = DP_INC ∨ c = DP_DEC) ∧
        last.value < 0x7f ∧ last.type = c then
      tmp.dropLast ++ [{ last with value := last.value + 1 }]
    else
      tmp ++ [{ type := c, value := 1 }]
  | none => tmp ++ [{ type := c, value := 1 }]

/-- The function `translate_command`: scan the source left to right. -/
def translate_command (code : List Nat) : List COMMAND :=
  code.foldl translate_command_step []

/-! ## The emitter: `translate_asm` -/

/-- Conversion of a mathematical integer to `unsigned long` (64 bits). -/
def to_ulong (x : Int) : Nat := (x % 2 ^ 64).toNat

/-- Conversion of an `unsigned long` to `long` (two's complement). -/
def to_long (u : Nat) : Int :=
  if u % 2 ^ 64 < 2 ^ 63 then ((u % 2 ^ 64 : Nat) : Int) else ((u % 2 ^ 64 : Nat) : Int) - 2 ^ 64

/-- The expression `(x & (0xff << (8 * i))) >> (8 * i)` stored into an `unsigned char`. -/
def byte_at (x : Nat) (i : Nat) : Nat :=
  ((x &&& (0xff <<< (8 * i))) >>> (8 * i)) % 256

/-- The local state of `translate_asm`: the code vector and the bracket stack. -/
structure EmitState where
  /-- The bytes emitted so far (`code`). -/
  code : List Nat
  /-- The stack of `[` offsets (`bracketStack`), top first. -/
  bracketStack : List Nat
deriving DecidableEq

/-- The 22 bytes emitted for `INPUT` (the `read` syscall sequence). -/
def input_bytes : List Nat :=
  [0xb8, 0x00, 0x00, 0x00, 0x00, 0xbf, 0x00, 0x00, 0x00, 0x00, 0x48, 0x89, 0xd6, 0x52,
   0xba, 0x01, 0x00, 0x00, 0x00, 0x0f, 0x05, 0x5a]

/-- The 22 bytes emitted for `OUTPUT` (the `write` syscall sequence). -/
def output_bytes : List Nat :=
  [0xb8, 0x01, 0x00, 0x00, 0x00, 0xbf, 0x01, 0x00, 0x00, 0x00, 0x48, 0x89, 0xd6, 0x52,
   0xba, 0x01, 0x00, 0x00, 0x00, 0x0f, 0x05, 0x5a]

/-- The loop `for i in 0..3: code[at + i] = byte i of x`. -/
def patch4 (code : List Nat) (pos : Nat) (x : Nat) : List Nat :=
  (List.range 4).foldl (fun c i => c.set (pos + i) (byte_at x i)) code

/-- One iteration of the main loop of `translate_asm`: the range assertion on
`cmd->value`, then the `switch` on `cmd->type`. -/
def translate_asm_step (st : EmitState) (cmd : COMMAND) : Option EmitState :=
  if ¬ (cmd.value > 0 ∧ cmd.value ≤ 0x7f) then none
  else if cmd.type = DATA_INC then
    some { st with code := st.code ++ [0x80, 0x02, (cmd.value % 256).toNat] }
  else if cmd.type = DATA_DEC then
    some { st with code := st.code ++ [0x80, 0x2a, (cmd.value % 256).toNat] }
  else if cmd.type = DP_INC then
    some { st with code := st.code ++ [0x48, 0x83, 0xc2, (cmd.value % 256).toNat] }
  else if cmd.type = DP_DEC then
    some { st with code := st.code ++ [0x48, 0x83, 0xea, (cmd.value % 256).toNat] }
  else if cmd.type = LOOP_START then
    some { code := st.code ++ [0x80, 0x3a, 0x00, 0x0f, 0x84, 0x12, 0x34, 0x56, 0x78],
           bracketStack := st.code.length :: st.bracketStack }
  else if cmd.type = LOOP_END then
    match st.bracketStack with
    | [] => none
    | last :: rest =>
      let pos := st.code.length
      let jmpLen : Int := to_long (to_ulong ((pos : Int) - (last : Int)))
      let code1 := st.code ++ [0x80, 0x3a, 0x00, 0x0f, 0x85] ++
        (List.range 4).map (fun i => byte_at (to_ulong (-jmpLen)) i)
      if code1[last + 5]? = some 0x12 ∧ code1[last + 6]? = some 0x34 ∧
          code1[last + 7]? = some 0x56 ∧ code1[last + 8]? = some 0x78 then
        some { code := patch4 code1 (last + 5) (to_ulong jmpLen), bracketStack := rest }
      else none
  else if cmd.type = INPUT then
    some { st with code := st.code ++ input_bytes }
  else if cmd.type = OUTPUT then
    some { st with code := st.code ++ output_bytes }
  else some st

/-- The main loop `for (auto cmd : commands)` of `translate_asm`. -/
def translate_asm_loop : List COMMAND → EmitState → Option EmitState
  | [], st => some st
  | cmd :: rest, st =>
    match translate_asm_step st cmd with
    | none => none
    | some st1 => translate_asm_loop rest st1

/-- The prologue of `translate_asm`: `mov rdx, imm64` with the tape address. -/
def prologue (data : Nat) : List Nat :=
  [0x48, 0xba] ++ (List.range 8).map (fun i => byte_at (data % 2 ^ 64) i)

/-- The function `translate_asm`; `data` is the tape address as an integer. -/
def translate_asm (commands : List COMMAND) (data : Nat) : Option (List Nat) :=
  match translate_asm_loop commands { code := prologue data, bracketStack := [] } with
  | none => none
  | some st => if st.bracketStack = [] then some (st.code ++ [0xc3]) else none

/-! ## Specification-level notions for the folder -/

/-- The four kinds that the folder may merge. -/
def is_arith (c : Nat) : Prop := c = DATA_INC ∨ c = DATA_DEC ∨ c = DP_INC ∨ c = DP_DEC

instance : DecidablePred is_arith := fun c =>
  inferInstanceAs (Decidable (c = DATA_INC ∨ c = DATA_DEC ∨ c = DP_INC ∨ c = DP_DEC))

/-- The four kinds whose count is never used. -/
def is_control (c : Nat) : Prop := c = INPUT ∨ c = OUTPUT ∨ c = LOOP_START ∨ c = LOOP_END

instance : DecidablePred is_control := fun c =>
  inferInstanceAs (Decidable (c = INPUT ∨ c = OUTPUT ∨ c = LOOP_START ∨ c = LOOP_END))

/-- The eight recognised opcodes. -/
def is_opcode (c : Nat) : Prop := is_arith c ∨ is_control c

instance : DecidablePred is_opcode := fun c =>
  inferInstanceAs (Decidable (is_arith c ∨ is_control c))

/-- The textual equivalent of an instruction list. -/
def text : List COMMAND → List Nat
  | [] => []
  | cmd :: rest => List.replicate cmd.value.toNat cmd.type ++ text rest

/-- The invariant of the folder's vector. -/
def folded (l : List COMMAND) : Prop :=
  ∀ cmd ∈ l, 1 ≤ cmd.value ∧ cmd.value ≤ 127 ∧ (¬ is_arith cmd.type → cmd.value = 1)

/-! ## The idealised tape of the reference interpreter

Section 4.2 of the specification gives the effect of each folded instruction on
the tape (`[dp] += n`, `dp += n`, one byte read, one byte written); the
reference interpreter applies the effect of one source character at a time.
Both are read here along a straight line of instructions: a bracket has no
effect of its own on the tape, and a byte that is not an opcode has none. -/

/-- The idealised tape: data pointer, cells (bytes), pending input, output trace. -/
structure Tape where
  /-- The data pointer. -/
  dp : Int
  /-- The cells, each a byte. -/
  cells : Int → Nat
  /-- The bytes still to be read from standard input. -/
  input : List Nat
  /-- The bytes written to standard output so far. -/
  output : List Nat

/-- The effect `[dp] += d` on a byte cell (arithmetic modulo 256). -/
def Tape.add (t : Tape) (d : Int) : Tape :=
  { t with cells := Function.update t.cells t.dp ((((t.cells t.dp : Nat) : Int) + d) % 256).toNat }

/-- The effect `dp += d`. -/
def Tape.move (t : Tape) (d : Int) : Tape :=
  { t with dp := t.dp + d }

/-- The effect of reading one byte into the current cell; at end of input the cell is unchanged. -/
def Tape.read (t : Tape) : Tape :=
  match t.input with
  | [] => t
  | b :: rest => { t with cells := Function.update t.cells t.dp (b % 256), input := rest }

/-- The effect of writing the current cell to the output. -/
def Tape.write (t : Tape) : Tape :=
  { t with output := t.output ++ [t.cells t.dp] }

/-- The reference interpreter on one source character. -/
def step_char (t : Tape) (c : Nat) : Tape :=
  if c = DATA_INC then t.add 1
  else if c = DATA_DEC then t.add (-1)
  else if c = DP_INC then t.move 1
  else if c = DP_DEC then t.move (-1)
  else if c = INPUT then t.read
  else if c = OUTPUT then t.write
  else t

/-- The reference interpreter on a sequence of source characters. -/
def run_source (s : List Nat) (t : Tape) : Tape := s.foldl step_char t

/-- The effect of one folded instruction (the table of section 4.2). -/
def step_command (t : Tape) (cmd : COMMAND) : Tape :=
  if cmd.type = DATA_INC then t.add cmd.value
  else if cmd.type = DATA_DEC then t.add (-cmd.value)
  else if cmd.type = DP_INC then t.move cmd.value
  else if cmd.type = DP_DEC then t.move (-cmd.value)
  else if cmd.type = INPUT then t.read
  else if cmd.type = OUTPUT then t.write
  else t

/-- The cumulative effect of a sequence of folded instructions. -/
def run_commands (l : List COMMAND) (t : Tape) : Tape := l.foldl step_command t

/-! ## Specification-level notions for the emitter -/

/-- The bytes appended by the `switch` of `translate_asm` for a command that is neither
`LOOP_START` nor `LOOP_END` (nothing for a kind that is not an opcode). -/
def simple_bytes (cmd : COMMAND) : List Nat :=
  if cmd.type = DATA_INC then [0x80, 0x02, (cmd.value % 256).toNat]
  else if cmd.type = DATA_DEC then [0x80, 0x2a, (cmd.value % 256).toNat]
  else if cmd.type = DP_INC then [0x48, 0x83, 0xc2, (cmd.value % 256).toNat]
  else if cmd.type = DP_DEC then [0x48, 0x83, 0xea, (cmd.value % 256).toNat]
  else if cmd.type = INPUT then input_bytes
  else if cmd.type = OUTPUT then output_bytes
  else []

/-- The range assertion of `translate_asm` on `cmd->value`. -/
def value_ok (cmd : COMMAND) : Prop := 0 < cmd.value ∧ cmd.value ≤ 0x7f

instance : DecidablePred value_ok := fun cmd =>
  inferInstanceAs (Decidable (0 < cmd.value ∧ cmd.value ≤ 0x7f))

/-- The bracket depth after reading a list of commands from depth `d`; `none` when a
`LOOP_END` is met at depth 0. -/
def depth_after : List COMMAND → Nat → Option Nat
  | [], d => some d
  | cmd :: rest, d =>
    if cmd.type = LOOP_START then depth_after rest (d + 1)
    else if cmd.type = LOOP_END then
      match d with
      | 0 => none
      | d1 + 1 => depth_after rest d1
    else depth_after rest d

/-- The subsequence of `LOOP_START` / `LOOP_END` is balanced and properly nested. -/
def balanced (l : List COMMAND) : Prop := depth_after l 0 = some 0

instance : DecidablePred balanced := fun l =>
  inferInstanceAs (Decidable (depth_after l 0 = some 0))

/-- The offsets of a bracket stack are those of disjoint 9-byte `[` sequences that lie,
in stack order, between offset `lo` and the end `n` of the code. -/
def stack_ok (lo : Nat) : List Nat → Nat → Prop
  | [], n => lo ≤ n
  | e :: rest, n => e + 9 ≤ n ∧ stack_ok lo rest e

/-- The placeholder of the `[` sequence at offset `e` still holds the sentinel. -/
def sentinel_at (code : List Nat) (e : Nat) : Prop :=
  code[e + 5]? = some 0x12 ∧ code[e + 6]? = some 0x34 ∧
    code[e + 7]? = some 0x56 ∧ code[e + 8]? = some 0x78

/-- The invariant of the main loop of `translate_asm`. -/
def emit_inv (lo : Nat) (st : EmitState) : Prop :=
  stack_ok lo st.bracketStack st.code.length ∧ ∀ e ∈ st.bracketStack, sentinel_at st.code e

/-- The unsigned little-endian 32-bit value stored at `B[k..k+3]` (0 for a missing byte). -/
def le32 (B : List Nat) (k : Nat) : Nat :=
  B.getD k 0 + 256 * B.getD (k + 1) 0 + 65536 * B.getD (k + 2) 0 + 16777216 * B.getD (k + 3) 0

/-- The signed little-endian 32-bit value stored at `B[k..k+3]`. -/
def le32s (B : List Nat) (k : Nat) : Int :=
  if le32 B k < 2 ^ 31 then (le32 B k : Int) else (le32 B k : Int) - 2 ^ 32

instance (code : List Nat) (e : Nat) : Decidable (sentinel_at code e) :=
  inferInstanceAs (Decidable (code[e + 5]? = some 0x12 ∧ code[e + 6]? = some 0x34 ∧
    code[e + 7]? = some 0x56 ∧ code[e + 8]? = some 0x78))

/-- The code vector after the `LOOP_END` case of `translate_asm` has run with `last` on
top of the bracket stack: the 9 bytes of the `]` sequence are appended, then the
placeholder of the matching `[` sequence is overwritten. -/
def loop_end_code (code : List Nat) (last : Nat) : List Nat :=
  patch4
    (code ++ [0x80, 0x3a, 0x00, 0x0f, 0x85] ++
      (List.range 4).map (fun i =>
        byte_at (to_ulong (-(to_long (to_ulong ((code.length : Int) - (last : Int)))))) i))
    (last + 5) (to_ulong (to_long (to_ulong ((code.length : Int) - (last : Int)))))

/-- Two adjacent instructions `x`, `y` are not a missed merge: if they are of the same
arithmetic or pointer kind, the first one is full. -/
def not_mergeable (x y : COMMAND) : Prop :=
  is_arith x.type → x.type = y.type → ¬ x.value < 0x7f

/-- The emitter state `st`, computed relative to offset 0, placed after already emitted
bytes `A` and above older stack entries `S`. -/
def relocate (A : List Nat) (S : List Nat) (st : EmitState) : EmitState :=
  { code := A ++ st.code, bracketStack := st.bracketStack.map (fun e => e + A.length) ++ S }

/-- The buffer `translate_asm l a` with its 10-byte prologue and its final `ret` byte
removed. -/
def body (l : List COMMAND) (a : Nat) : Option (List Nat) :=
  (translate_asm l a).map (fun B => (B.drop 10).dropLast)

/-- The four bytes of the little-endian encoding of `x` modulo `2^32`. -/
def le_bytes32 (x : Nat) : List Nat :=
  [x % 256, x / 256 % 256, x / 65536 % 256, x / 16777216 % 256]

/-- The number of bytes that the `switch` of `translate_asm` emits for a command. -/
def cmd_size (cmd : COMMAND) : Nat :=
  if cmd.type = DATA_INC ∨ cmd.type = DATA_DEC then 3
  else if cmd.type = DP_INC ∨ cmd.type = DP_DEC then 4
  else if cmd.type = INPUT ∨ cmd.type = OUTPUT then 22
  else if cmd.type = LOOP_START ∨ cmd.type = LOOP_END then 9
  else 0

/-- The five opcode bytes of a `[` sequence (`cmp byte [rdx], 0` and `je`) stand at
offset `e`. -/
def header_at (code : List Nat) (e : Nat) : Prop :=
  code[e]? = some 0x80 ∧ code[e + 1]? = some 0x3a ∧ code[e + 2]? = some 0x00 ∧
    code[e + 3]? = some 0x0f ∧ code[e + 4]? = some 0x84

/-! ## Lemmas on the folder -/

theorem text_append (l1 l2 : List COMMAND) : text (l1 ++ l2) = text l1 ++ text l2 := by
  induction l1 with
  | nil => simp [text]
  | cons a l ih => simp [text, ih]

theorem eq_nil_or_snoc {α : Type} (l : List α) : l = [] ∨ ∃ xs x, l = xs ++ [x] := by
  rcases List.eq_nil_or_concat l with h | ⟨xs, x, h⟩
  · exact Or.inl h
  · exact Or.inr ⟨xs, x, by simpa using h⟩

theorem translate_command_step_nil (c : Nat) :
    translate_command_step [] c = [{ type := c, value := 1 }] := by
  simp [translate_command_step]

theorem translate_command_step_concat (xs : List COMMAND) (x : COMMAND) (c : Nat) :
    translate_command_step (xs ++ [x]) c =
      if is_arith c ∧ x.value < 0x7f ∧ x.type = c then
        xs ++ [{ type := x.type, value := x.value + 1 }]
      else xs ++ [x, { type := c, value := 1 }] := by
  simp [translate_command_step, is_arith]

theorem translate_command_concat (s : List Nat) (c : Nat) :
    translate_command (s ++ [c]) = translate_command_step (translate_command s) c := by
  simp [translate_command, List.foldl_append]

theorem translate_command_step_append (A B : List COMMAND) (c : Nat) (hB : B ≠ []) :
    translate_command_step (A ++ B) c = A ++ translate_command_step B c := by
  rcases eq_nil_or_snoc B with h | ⟨ys, y, h⟩
  · exact absurd h hB
  · subst h
    rw [← List.append_assoc, translate_command_step_concat, translate_command_step_concat]
    split <;> simp

theorem folded_step (tmp : List COMMAND) (c : Nat) (h : folded tmp) :
    folded (translate_command_step tmp c) := by
  rcases eq_nil_or_snoc tmp with h0 | ⟨xs, x, h0⟩
  · subst h0
    rw [translate_command_step_nil]
    intro cmd hc
    simp at hc
    subst hc
    simp
  · subst h0
    rw [translate_command_step_concat]
    have hx := h x (by simp)
    split
    · rename_i hc
      intro cmd hm
      rcases List.mem_append.1 hm with hm | hm
      · exact h cmd (by simp [hm])
      · simp at hm
        subst hm
        refine ⟨by simp; omega, by simp; omega, ?_⟩
        intro hna
        exact absurd (hc.2.2 ▸ hc.1) hna
    · intro cmd hm
      simp at hm
      rcases hm with hm | hm | hm
      · exact h cmd (by simp [hm])
      · subst hm; exact hx
      · subst hm; simp

theorem folded_translate_command (s : List Nat) : folded (translate_command s) := by
  induction s using List.reverseRecOn with
  | nil => intro cmd hc; simp [translate_command] at hc
  | append_singleton s c ih => rw [translate_command_concat]; exact folded_step _ _ ih

theorem text_step (tmp : List COMMAND) (c : Nat) (h : folded tmp) :
    text (translate_command_step tmp c) = text tmp ++ [c] := by
  rcases eq_nil_or_snoc tmp with h0 | ⟨xs, x, h0⟩
  · subst h0
    simp [translate_command_step_nil, text]
  · subst h0
    rw [translate_command_step_concat]
    have hx := h x (by simp)
    split
    · rename_i hc
      rw [text_append, text_append]
      simp only [text, List.append_nil]
      have : (x.value + 1).toNat = x.value.toNat + 1 := by omega
      rw [this, List.replicate_succ', hc.2.2]
      simp
    · rw [show xs ++ [x, ({ type := c, value := 1 } : COMMAND)] = (xs ++ [x]) ++ [{ type := c, value := 1 }] by simp]
      rw [text_append (xs ++ [x])]
      simp [text]

theorem text_translate_command (s : List Nat) : text (translate_command s) = s := by
  induction s using List.reverseRecOn with
  | nil => simp [translate_command, text]
  | append_singleton s c ih =>
    rw [translate_command_concat, text_step _ _ (folded_translate_command s), ih]


/-! ## Lemmas on the idealised tape -/

theorem Tape.add_add (t : Tape) (a b : Int) : (t.add a).add b = t.add (a + b) := by
  have key : ((((((((t.cells t.dp : Nat) : Int) + a) % 256).toNat : Nat) : Int) + b) % 256).toNat =
      ((((t.cells t.dp : Nat) : Int) + (a + b)) % 256).toNat := by omega
  simp only [Tape.add, Function.update_same, Function.update_idem, key]

theorem Tape.move_move (t : Tape) (a b : Int) : (t.move a).move b = t.move (a + b) := by
  simp only [Tape.move, add_assoc]

theorem run_source_replicate_add (c : Nat) (d : Int) (hstep : ∀ t, step_char t c = t.add d)
    (k : Nat) (t : Tape) :
    run_source (List.replicate (k + 1) c) t = t.add (((k + 1 : Nat) : Int) * d) := by
  induction k generalizing t with
  | zero => simp [run_source, hstep]
  | succ k ih =>
    rw [List.replicate_succ]
    have : run_source (c :: List.replicate (k + 1) c) t =
        run_source (List.replicate (k + 1) c) (step_char t c) := by
      simp [run_source]
    rw [this, ih, hstep, Tape.add_add]
    congr 1
    push_cast
    ring

theorem run_source_replicate_move (c : Nat) (d : Int) (hstep : ∀ t, step_char t c = t.move d)
    (k : Nat) (t : Tape) :
    run_source (List.replicate (k + 1) c) t = t.move (((k + 1 : Nat) : Int) * d) := by
  induction k generalizing t with
  | zero => simp [run_source, hstep]
  | succ k ih =>
    rw [List.replicate_succ]
    have : run_source (c :: List.replicate (k + 1) c) t =
        run_source (List.replicate (k + 1) c) (step_char t c) := by
      simp [run_source]
    rw [this, ih, hstep, Tape.move_move]
    congr 1
    push_cast
    ring

theorem run_source_append (s1 s2 : List Nat) (t : Tape) :
    run_source (s1 ++ s2) t = run_source s2 (run_source s1 t) := by
  simp [run_source, List.foldl_append]

theorem step_command_eq_run_source (cmd : COMMAND) (h1 : 1 ≤ cmd.value)
    (hc : ¬ is_arith cmd.type → cmd.value = 1) (t : Tape) :
    step_command t cmd = run_source (List.replicate cmd.value.toNat cmd.type) t := by
  obtain ⟨k, hk⟩ : ∃ k : Nat, cmd.value.toNat = k + 1 := ⟨cmd.value.toNat - 1, by omega⟩
  have hv : cmd.value = ((k + 1 : Nat) : Int) := by omega
  rw [hk]
  by_cases h : is_arith cmd.type
  · rcases h with h | h | h | h
    · rw [run_source_replicate_add _ 1 (by intro t; simp [step_char, h])]
      simp [step_command, h, hv]
    · rw [run_source_replicate_add _ (-1) (by intro t; simp [step_char, h])]
      simp [step_command, h, hv]
    · rw [run_source_replicate_move _ 1 (by intro t; simp [step_char, h])]
      simp [step_command, h, hv]
    · rw [run_source_replicate_move _ (-1) (by intro t; simp [step_char, h])]
      simp [step_command, h, hv]
  · have hk0 : k = 0 := by have := hc h; omega
    subst hk0
    simp only [is_arith, not_or] at h
    simp [run_source, step_command, step_char, h.1, h.2.1, h.2.2.1, h.2.2.2]

theorem run_commands_eq_run_source (l : List COMMAND) (h : folded l) (t : Tape) :
    run_commands l t = run_source (text l) t := by
  induction l generalizing t with
  | nil => simp [run_commands, run_source, text]
  | cons cmd rest ih =>
    have hc := h cmd (by simp)
    have hrest : folded rest := fun x hx => h x (by simp [hx])
    rw [text, run_source_append, ← step_command_eq_run_source cmd hc.1 hc.2.2, ← ih hrest]
    simp [run_commands]


/-! ## Further lemmas on the folder -/

theorem mem_text (l : List COMMAND) (h : folded l) (b : Nat) :
    b ∈ text l ↔ ∃ cmd ∈ l, cmd.type = b := by
  induction l with
  | nil => simp [text]
  | cons cmd rest ih =>
    have hc := h cmd (by simp)
    have hrest : folded rest := fun x hx => h x (by simp [hx])
    have hpos : cmd.value.toNat ≠ 0 := by omega
    simp only [text, List.mem_append, List.mem_replicate, ih hrest, List.mem_cons,
      exists_eq_or_imp]
    constructor
    · rintro (⟨_, h1⟩ | h1)
      · exact Or.inl h1.symm
      · exact Or.inr h1
    · rintro (h1 | h1)
      · exact Or.inl ⟨hpos, h1.symm⟩
      · exact Or.inr h1

theorem text_filter (p : Nat → Bool) (l : List COMMAND) :
    text (l.filter (fun cmd => p cmd.type)) = (text l).filter p := by
  induction l with
  | nil => simp [text]
  | cons cmd rest ih =>
    rw [text, List.filter_append, ← ih, List.filter_cons]
    by_cases hp : p cmd.type = true
    · have : (List.replicate cmd.value.toNat cmd.type).filter p =
          List.replicate cmd.value.toNat cmd.type := by
        rw [List.filter_eq_self]
        intro a ha
        rw [List.eq_of_mem_replicate ha]
        exact hp
      rw [this, if_pos hp, text]
    · have : (List.replicate cmd.value.toNat cmd.type).filter p = [] := by
        rw [List.filter_eq_nil_iff]
        intro a ha
        rw [List.eq_of_mem_replicate ha]
        exact hp
      rw [this, if_neg hp]
      simp

theorem eq_map_text_of_value_one (l : List COMMAND) (h : ∀ cmd ∈ l, cmd.value = 1) :
    l = (text l).map (fun b => { type := b, value := 1 }) := by
  induction l with
  | nil => simp [text]
  | cons cmd rest ih =>
    have hc := h cmd (by simp)
    have hrest : ∀ x ∈ rest, x.value = 1 := fun x hx => h x (by simp [hx])
    rw [text, hc]
    simp only [Int.toNat_one, List.replicate_one, List.singleton_append, List.map_cons]
    rw [← ih hrest]
    congr 1
    cases cmd
    simp only at hc
    rw [hc]

theorem sum_value_eq_length_text (l : List COMMAND) (h : folded l) :
    (l.map (fun cmd => cmd.value)).sum = ((text l).length : Int) := by
  induction l with
  | nil => simp [text]
  | cons cmd rest ih =>
    have hc := h cmd (by simp)
    have hrest : folded rest := fun x hx => h x (by simp [hx])
    simp only [List.map_cons, List.sum_cons, ih hrest, text, List.length_append,
      List.length_replicate]
    omega

theorem translate_command_foldl_control (acc : List COMMAND) (x : COMMAND)
    (hx : ¬ is_arith x.type) (s : List Nat) :
    s.foldl translate_command_step (acc ++ [x]) = acc ++ x :: translate_command s := by
  induction s using List.reverseRecOn with
  | nil => simp [translate_command]
  | append_singleton s c ih =>
    rw [List.foldl_append, ih, translate_command_concat]
    simp only [List.foldl_cons, List.foldl_nil]
    rcases eq_nil_or_snoc (translate_command s) with h0 | ⟨ys, y, h0⟩
    · rw [h0, translate_command_step_nil, translate_command_step_concat]
      have : ¬ (is_arith c ∧ x.value < 0x7f ∧ x.type = c) := by
        rintro ⟨h1, _, h3⟩
        exact hx (h3 ▸ h1)
      rw [if_neg this]
    · have hne : x :: translate_command s ≠ [] := by simp
      rw [translate_command_step_append acc _ c hne]
      have hne2 : translate_command s ≠ [] := by rw [h0]; simp
      have := translate_command_step_append [x] _ c hne2
      simp only [List.singleton_append] at this
      rw [this]

theorem translate_command_split (s1 : List Nat) (c : Nat) (s2 : List Nat) (hc : ¬ is_arith c) :
    translate_command (s1 ++ c :: s2) =
      translate_command s1 ++ { type := c, value := 1 } :: translate_command s2 := by
  have h1 : translate_command (s1 ++ c :: s2) =
      s2.foldl translate_command_step (translate_command (s1 ++ [c])) := by
    simp [translate_command, List.foldl_append]
  rw [h1, translate_command_concat]
  rcases eq_nil_or_snoc (translate_command s1) with h0 | ⟨ys, y, h0⟩
  · rw [h0, translate_command_step_nil]
    exact translate_command_foldl_control [] _ hc s2
  · rw [h0, translate_command_step_concat]
    have : ¬ (is_arith c ∧ y.value < 0x7f ∧ y.type = c) := fun h => hc h.1
    rw [if_neg this]
    have := translate_command_foldl_control (ys ++ [y]) { type := c, value := 1 } hc s2
    simpa using this

theorem count_control_step (k : Nat) (hk : ¬ is_arith k) (tmp : List COMMAND) (c : Nat) :
    ((translate_command_step tmp c).filter (fun cmd => cmd.type = k)).length =
      (tmp.filter (fun cmd => cmd.type = k)).length + (if c = k then 1 else 0) := by
  rcases eq_nil_or_snoc tmp with h0 | ⟨xs, x, h0⟩
  · subst h0
    rw [translate_command_step_nil]
    by_cases h : c = k <;> simp [h]
  · subst h0
    rw [translate_command_step_concat]
    split
    · rename_i hc
      have hck : c ≠ k := fun h => hk (h ▸ hc.1)
      have hxk : x.type ≠ k := fun h => hck (hc.2.2 ▸ h)
      simp [List.filter_append, List.filter_cons, hck, hxk]
    · by_cases h : c = k <;> by_cases h2 : x.type = k <;>
        simp [List.filter_append, List.filter_cons, h, h2]

theorem count_control_translate_command (k : Nat) (hk : ¬ is_arith k) (s : List Nat) :
    ((translate_command s).filter (fun cmd => cmd.type = k)).length = s.count k := by
  induction s using List.reverseRecOn with
  | nil => simp [translate_command]
  | append_singleton s c ih =>
    rw [translate_command_concat, count_control_step k hk, ih, List.count_append]
    by_cases h : c = k
    · simp [h]
    · have : List.count k [c] = 0 := List.count_eq_zero.2 (by simpa using fun h2 => h h2.symm)
      simp [h, this]

theorem not_arith_of_control (c : Nat) (h : is_control c) : ¬ is_arith c := by
  simp only [is_control, INPUT, OUTPUT, LOOP_START, LOOP_END] at h
  simp only [is_arith, DATA_INC, DATA_DEC, DP_INC, DP_DEC]
  omega

theorem translate_command_replicate_inc (n : Nat) :
    translate_command (List.replicate n DATA_INC) =
      List.replicate (n / 127) { type := DATA_INC, value := 127 } ++
        (if n % 127 = 0 then [] else [{ type := DATA_INC, value := ((n % 127 : Nat) : Int) }]) := by
  induction n with
  | zero => simp [translate_command]
  | succ n ih =>
    rw [List.replicate_succ', translate_command_concat, ih]
    by_cases h : n % 127 = 0
    · rw [if_pos h, List.append_nil]
      have h1 : (n + 1) % 127 = 1 := by omega
      have h2 : (n + 1) / 127 = n / 127 := by omega
      rw [h1, h2, if_neg (by decide)]
      rcases Nat.eq_zero_or_pos (n / 127) with hz | hz
      · rw [hz]
        simp [translate_command_step_nil]
      · obtain ⟨k, hk⟩ : ∃ k, n / 127 = k + 1 := ⟨n / 127 - 1, by omega⟩
        rw [hk, List.replicate_succ', translate_command_step_concat]
        simp
    · rw [if_neg h, translate_command_step_concat]
      have hlt : ((n % 127 : Nat) : Int) < 0x7f := by omega
      rw [if_pos ⟨Or.inl rfl, hlt, rfl⟩]
      by_cases h3 : (n + 1) % 127 = 0
      · have h4 : (n + 1) / 127 = n / 127 + 1 := by omega
        have h5 : ((n % 127 : Nat) : Int) + 1 = 127 := by omega
        rw [if_pos h3, h4, List.replicate_succ', h5]
        simp
      · have h4 : (n + 1) / 127 = n / 127 := by omega
        have h5 : ((n % 127 : Nat) : Int) + 1 = (((n + 1) % 127 : Nat) : Int) := by omega
        rw [if_neg h3, h4, h5]


/-! ## The folder: claims -/

/-- C3 (folding correctness). For every source `s` and every prefix `p` of
`translate_command s` there is a prefix `q` of `s` that is `p` read as text (each
instruction as its character repeated count times), so `p` and `q` have the same sequence
of opcodes with the non-opcode bytes disregarded; the cumulative effect of `p` on every
idealised tape is the effect of the reference interpreter on `q`; and for `p` the whole
list `q` is `s` itself. -/
theorem folding_correctness (s : List Nat) (p : List COMMAND)
    (hp : p <+: translate_command s) :
    ∃ q, q <+: s ∧ text p = q ∧
      (text p).filter (fun b => decide (is_opcode b)) = q.filter (fun b => decide (is_opcode b)) ∧
      (∀ t : Tape, run_commands p t = run_source q t) ∧
      (p = translate_command s → q = s) := by
  obtain ⟨r, hr⟩ := hp
  have hfold : folded p := fun cmd hc =>
    folded_translate_command s cmd (by rw [← hr]; simp [hc])
  refine ⟨text p, ⟨text r, ?_⟩, rfl, rfl, fun t => run_commands_eq_run_source p hfold t, ?_⟩
  · rw [← text_append, hr, text_translate_command]
  · intro h
    rw [h, text_translate_command]

/-- Witness of C3 on the source `++>[` and the prefix made of its first two instructions. -/
theorem folding_correctness_witness :
    ∃ q, q <+: [43, 43, 62, 91] ∧
      text [{ type := 43, value := 2 }, { type := 62, value := 1 }] = q ∧
      (text [{ type := 43, value := 2 }, { type := 62, value := 1 }]).filter
          (fun b => decide (is_opcode b)) = q.filter (fun b => decide (is_opcode b)) ∧
      (∀ t : Tape, run_commands [{ type := 43, value := 2 }, { type := 62, value := 1 }] t =
          run_source q t) ∧
      ([{ type := 43, value := 2 }, { type := 62, value := 1 }] = translate_command [43, 43, 62, 91] →
          q = [43, 43, 62, 91]) :=
  folding_correctness [43, 43, 62, 91] [{ type := 43, value := 2 }, { type := 62, value := 1 }]
    (by decide)

/-- C4 (run-length bound). Every instruction of `translate_command s` has a count
between 1 and 127. -/
theorem run_length_bound (s : List Nat) :
    ∀ cmd ∈ translate_command s, 1 ≤ cmd.value ∧ cmd.value ≤ 127 :=
  fun cmd hc => ⟨(folded_translate_command s cmd hc).1, (folded_translate_command s cmd hc).2.1⟩

/-- Witness of C4 on the source `++`, whose single instruction has count 2. -/
theorem run_length_bound_witness :
    1 ≤ (COMMAND.mk DATA_INC 2).value ∧ (COMMAND.mk DATA_INC 2).value ≤ 127 :=
  run_length_bound [43, 43] (COMMAND.mk DATA_INC 2) (by decide)

/-- C5, as stated, fails on the source `+ +`: the folder keeps the space as an
instruction of kind 32, so the result neither consists of opcodes only nor equals
the folding of `++`, which is the single instruction `DATA_INC` with count 2. -/
theorem comment_bytes_counterexample :
    translate_command [43, 32, 43] =
        [{ type := DATA_INC, value := 1 }, { type := 32, value := 1 },
         { type := DATA_INC, value := 1 }] ∧
      ¬ is_opcode 32 ∧
      [43, 32, 43].filter (fun b => decide (is_opcode b)) = [43, 43] ∧
      translate_command [43, 43] = [{ type := DATA_INC, value := 2 }] ∧
      ¬ ((∀ cmd ∈ translate_command [43, 32, 43], is_opcode cmd.type) ∧
          translate_command [43, 32, 43] =
            translate_command ([43, 32, 43].filter (fun b => decide (is_opcode b)))) := by
  decide

/-- C5 (amended). The folder keeps comment bytes: the text of `translate_command s`
is `s` itself; the result consists of opcode instructions only exactly when `s` has no
comment byte; its non-opcode instructions are the comment bytes of `s`, in order, each
with count 1; and its opcode instructions spell `s` with the comment bytes removed. -/
theorem folder_keeps_comment_bytes (s : List Nat) :
    text (translate_command s) = s ∧
      ((∀ cmd ∈ translate_command s, is_opcode cmd.type) ↔ (∀ b ∈ s, is_opcode b)) ∧
      (translate_command s).filter (fun cmd => decide (¬ is_opcode cmd.type)) =
        (s.filter (fun b => decide (¬ is_opcode b))).map (fun b => { type := b, value := 1 }) ∧
      text ((translate_command s).filter (fun cmd => decide (is_opcode cmd.type))) =
        s.filter (fun b => decide (is_opcode b)) := by
  have hf := folded_translate_command s
  have ht := text_translate_command s
  refine ⟨ht, ?_, ?_, ?_⟩
  · constructor
    · intro h b hb
      rw [← ht, mem_text _ hf] at hb
      obtain ⟨cmd, hc, rfl⟩ := hb
      exact h cmd hc
    · intro h cmd hc
      exact h cmd.type (by rw [← ht, mem_text _ hf]; exact ⟨cmd, hc, rfl⟩)
  · have h1 : ∀ cmd ∈ (translate_command s).filter (fun cmd => decide (¬ is_opcode cmd.type)),
        cmd.value = 1 := by
      intro cmd hc
      rw [List.mem_filter] at hc
      have hn : ¬ is_opcode cmd.type := by simpa using hc.2
      exact (hf cmd hc.1).2.2 (fun ha => hn (Or.inl ha))
    have h2 := eq_map_text_of_value_one _ h1
    rw [text_filter (fun b => decide (¬ is_opcode b)), ht] at h2
    exact h2
  · rw [text_filter (fun b => decide (is_opcode b)), ht]

/-- C6 (long runs). For `1 ≤ n ≤ 300`, folding `+` repeated `n` times gives `n / 127`
instructions `DATA_INC` of count 127 followed, when `n % 127 ≠ 0`, by one of count
`n % 127`; the counts sum to `n`; and applying the instructions to a tape whose
current cell holds 0 leaves that cell equal to `n % 256`. -/
theorem long_runs_split (n : Nat) (h1 : 1 ≤ n) (h2 : n ≤ 300) :
    translate_command (List.replicate n DATA_INC) =
        List.replicate (n / 127) { type := DATA_INC, value := 127 } ++
          (if n % 127 = 0 then [] else [{ type := DATA_INC, value := ((n % 127 : Nat) : Int) }]) ∧
      ((translate_command (List.replicate n DATA_INC)).map (fun cmd => cmd.value)).sum = (n : Int) ∧
      (∀ t : Tape, t.cells t.dp = 0 →
        (run_commands (translate_command (List.replicate n DATA_INC)) t).cells t.dp = n % 256) := by
  have hf := folded_translate_command (List.replicate n DATA_INC)
  have ht := text_translate_command (List.replicate n DATA_INC)
  refine ⟨translate_command_replicate_inc n, ?_, ?_⟩
  · rw [sum_value_eq_length_text _ hf, ht, List.length_replicate]
  · intro t h0
    obtain ⟨k, rfl⟩ : ∃ k, n = k + 1 := ⟨n - 1, by omega⟩
    rw [run_commands_eq_run_source _ hf, ht,
      run_source_replicate_add DATA_INC 1 (by intro t; simp [step_char]) k t]
    simp only [Tape.add, Function.update_same, h0]
    omega

/-- Witness of C6 at `n = 300`: the counts are 127, 127, 46 and the cell ends at 44. -/
theorem long_runs_split_witness :
    translate_command (List.replicate 300 DATA_INC) =
        [{ type := DATA_INC, value := 127 }, { type := DATA_INC, value := 127 },
         { type := DATA_INC, value := 46 }] ∧
      ((translate_command (List.replicate 300 DATA_INC)).map (fun cmd => cmd.value)).sum = 300 ∧
      (∀ t : Tape, t.cells t.dp = 0 →
        (run_commands (translate_command (List.replicate 300 DATA_INC)) t).cells t.dp = 44) :=
  ⟨(long_runs_split 300 (by decide) (by decide)).1.trans (by decide),
    (long_runs_split 300 (by decide) (by decide)).2.1,
    (long_runs_split 300 (by decide) (by decide)).2.2⟩

/-- C7 (idempotent folding). Folding the textual equivalent of a folded list gives the
same list. -/
theorem idempotent_folding (s : List Nat) :
    translate_command (text (translate_command s)) = translate_command s := by
  rw [text_translate_command]

/-- C8 (no folding across or of control instructions). In `translate_command s` every
instruction of kind `INPUT`, `OUTPUT`, `LOOP_START` or `LOOP_END` has count 1; the number
of instructions of each such kind is the number of occurrences of its character in `s`;
and wherever `s` splits around such a character, the folded list splits there too, so no
run is merged across it. -/
theorem no_folding_across_control (s : List Nat) :
    (∀ cmd ∈ translate_command s, is_control cmd.type → cmd.value = 1) ∧
      (∀ k, is_control k →
        ((translate_command s).filter (fun cmd => decide (cmd.type = k))).length = s.count k) ∧
      (∀ s1 c s2, s = s1 ++ c :: s2 → is_control c →
        translate_command s =
          translate_command s1 ++ { type := c, value := 1 } :: translate_command s2) := by
  refine ⟨?_, ?_, ?_⟩
  · intro cmd hc hk
    exact (folded_translate_command s cmd hc).2.2 (not_arith_of_control _ hk)
  · intro k hk
    exact count_control_translate_command k (not_arith_of_control _ hk) s
  · intro s1 c s2 hs hc
    rw [hs]
    exact translate_command_split s1 c s2 (not_arith_of_control _ hc)

/-- Witness of C8 on the source `+.+`: the two `+` around the `.` stay apart. -/
theorem no_folding_across_control_witness :
    translate_command [43, 46, 43] =
      translate_command [43] ++ { type := 46, value := 1 } :: translate_command [43] :=
  (no_folding_across_control [43, 46, 43]).2.2 [43] 46 [43] (by decide) (by decide)


/-! ## Lemmas on the emitter -/

theorem translate_asm_step_simple (st : EmitState) (cmd : COMMAND)
    (h1 : cmd.type ≠ LOOP_START) (h2 : cmd.type ≠ LOOP_END) :
    translate_asm_step st cmd =
      if value_ok cmd then
        some { code := st.code ++ simple_bytes cmd, bracketStack := st.bracketStack }
      else none := by
  unfold translate_asm_step simple_bytes value_ok
  split_ifs <;> simp_all

theorem translate_asm_step_loop_start (st : EmitState) (cmd : COMMAND)
    (h1 : cmd.type = LOOP_START) :
    translate_asm_step st cmd =
      if value_ok cmd then
        some { code := st.code ++ [0x80, 0x3a, 0x00, 0x0f, 0x84, 0x12, 0x34, 0x56, 0x78],
               bracketStack := st.code.length :: st.bracketStack }
      else none := by
  unfold translate_asm_step value_ok
  by_cases hv : 0 < cmd.value ∧ cmd.value ≤ 0x7f
  · simp [h1, hv]
  · rw [if_neg hv]
    simp [hv]

theorem shiftRight_and (a b i : Nat) : (a &&& b) >>> i = (a >>> i) &&& (b >>> i) := by
  apply Nat.eq_of_testBit_eq
  intro j
  simp only [Nat.testBit_shiftRight, Nat.testBit_and]

theorem byte_at_eq (x i : Nat) : byte_at x i = x / 256 ^ i % 256 := by
  unfold byte_at
  rw [shiftRight_and, Nat.shiftLeft_shiftRight, Nat.shiftRight_eq_div_pow,
    show (0xff : Nat) = 2 ^ 8 - 1 by norm_num, Nat.and_pow_two_sub_one_eq_mod]
  have : (2 : Nat) ^ (8 * i) = 256 ^ i := by rw [pow_mul]; norm_num
  rw [this]
  norm_num


theorem patch4_length (cd : List Nat) (p x : Nat) : (patch4 cd p x).length = cd.length := by
  simp [patch4, show List.range 4 = [0, 1, 2, 3] from rfl]

theorem patch4_getElem? (cd : List Nat) (p x i : Nat) :
    (patch4 cd p x)[i]? =
      if p ≤ i ∧ i < p + 4 ∧ i < cd.length then some (byte_at x (i - p)) else cd[i]? := by
  simp only [patch4, show List.range 4 = [0, 1, 2, 3] from rfl, List.foldl_cons, List.foldl_nil,
    List.getElem?_set, List.length_set, Nat.add_zero]
  split_ifs <;>
    first
    | rfl
    | (exfalso; omega)
    | (have h : i - p = 0 := by omega
       rw [h])
    | (have h : i - p = 1 := by omega
       rw [h])
    | (have h : i - p = 2 := by omega
       rw [h])
    | (have h : i - p = 3 := by omega
       rw [h])
    | (symm; rw [List.getElem?_eq_none_iff]; omega)

theorem loop_end_code_length (code : List Nat) (last : Nat) :
    (loop_end_code code last).length = code.length + 9 := by
  simp [loop_end_code, patch4_length]

theorem loop_end_code_frame (code : List Nat) (last i : Nat) (hi : i < code.length)
    (hp : ¬ (last + 5 ≤ i ∧ i < last + 9)) :
    (loop_end_code code last)[i]? = code[i]? := by
  rw [loop_end_code, patch4_getElem?, if_neg (by omega), List.append_assoc,
    List.getElem?_append_left hi]

theorem loop_end_code_forward (code : List Nat) (last j : Nat) (hl : last + 9 ≤ code.length)
    (hj : j < 4) :
    (loop_end_code code last)[last + 5 + j]? =
      some (byte_at (to_ulong (to_long (to_ulong ((code.length : Int) - (last : Int))))) j) := by
  rw [loop_end_code, patch4_getElem?, if_pos]
  · congr 2
    omega
  · simp
    omega

theorem loop_end_code_backward (code : List Nat) (last j : Nat) (hl : last + 9 ≤ code.length)
    (hj : j < 4) :
    (loop_end_code code last)[code.length + 5 + j]? =
      some (byte_at (to_ulong (-(to_long (to_ulong ((code.length : Int) - (last : Int)))))) j) := by
  rw [loop_end_code, patch4_getElem?, if_neg (by omega),
    List.getElem?_append_right (by simp)]
  simp [hj]

theorem translate_asm_step_loop_end (st : EmitState) (cmd : COMMAND)
    (h1 : cmd.type = LOOP_END) :
    translate_asm_step st cmd =
      if value_ok cmd then
        match st.bracketStack with
        | [] => none
        | last :: rest =>
          if sentinel_at
              (st.code ++ [0x80, 0x3a, 0x00, 0x0f, 0x85] ++
                (List.range 4).map (fun i =>
                  byte_at (to_ulong (-(to_long (to_ulong ((st.code.length : Int) - (last : Int)))))) i))
              last then
            some { code := loop_end_code st.code last, bracketStack := rest }
          else none
      else none := by
  unfold translate_asm_step value_ok
  by_cases hv : 0 < cmd.value ∧ cmd.value ≤ 0x7f
  · simp only [hv, h1]
    simp only [and_self, not_true_eq_false, ↓reduceIte]
    cases st.bracketStack with
    | nil => rfl
    | cons last rest => simp only [sentinel_at, loop_end_code]; rfl
  · rw [if_neg hv]
    simp [hv]


theorem translate_asm_step_cases (st st1 : EmitState) (cmd : COMMAND)
    (h : translate_asm_step st cmd = some st1) :
    value_ok cmd ∧
      ((cmd.type ≠ LOOP_START ∧ cmd.type ≠ LOOP_END ∧
          st1 = { code := st.code ++ simple_bytes cmd, bracketStack := st.bracketStack }) ∨
        (cmd.type = LOOP_START ∧
          st1 = { code := st.code ++ [0x80, 0x3a, 0x00, 0x0f, 0x84, 0x12, 0x34, 0x56, 0x78],
                  bracketStack := st.code.length :: st.bracketStack }) ∨
        (cmd.type = LOOP_END ∧ ∃ last rest, st.bracketStack = last :: rest ∧
          st1 = { code := loop_end_code st.code last, bracketStack := rest })) := by
  by_cases h1 : cmd.type = LOOP_START
  · rw [translate_asm_step_loop_start st cmd h1] at h
    split at h
    · rename_i hv
      exact ⟨hv, Or.inr (Or.inl ⟨h1, (Option.some.inj h).symm⟩)⟩
    · exact absurd h (by simp)
  by_cases h2 : cmd.type = LOOP_END
  · rw [translate_asm_step_loop_end st cmd h2] at h
    split at h
    · rename_i hv
      refine ⟨hv, Or.inr (Or.inr ⟨h2, ?_⟩)⟩
      split at h
      · exact absurd h (by simp)
      · rename_i last rest hs
        split at h
        · exact ⟨last, rest, hs, (Option.some.inj h).symm⟩
        · exact absurd h (by simp)
    · exact absurd h (by simp)
  · rw [translate_asm_step_simple st cmd h1 h2] at h
    split at h
    · rename_i hv
      exact ⟨hv, Or.inl ⟨h1, h2, (Option.some.inj h).symm⟩⟩
    · exact absurd h (by simp)

theorem translate_asm_loop_cons (cmd : COMMAND) (rest : List COMMAND) (st st2 : EmitState)
    (h : translate_asm_loop (cmd :: rest) st = some st2) :
    ∃ st1, translate_asm_step st cmd = some st1 ∧ translate_asm_loop rest st1 = some st2 := by
  rw [translate_asm_loop] at h
  split at h
  · exact absurd h (by simp)
  · rename_i st1 hs
    exact ⟨st1, hs, h⟩

theorem translate_asm_loop_append (l1 l2 : List COMMAND) (st : EmitState) :
    translate_asm_loop (l1 ++ l2) st =
      match translate_asm_loop l1 st with
      | none => none
      | some st1 => translate_asm_loop l2 st1 := by
  induction l1 generalizing st with
  | nil => simp [translate_asm_loop]
  | cons cmd rest ih =>
    simp only [List.cons_append, translate_asm_loop]
    cases translate_asm_step st cmd with
    | none => rfl
    | some st1 => exact ih st1

theorem stack_ok_mono (lo : Nat) (S : List Nat) (n m : Nat) (h : stack_ok lo S n) (hnm : n ≤ m) :
    stack_ok lo S m := by
  cases S with
  | nil => exact Nat.le_trans h hnm
  | cons e rest => exact ⟨Nat.le_trans h.1 hnm, h.2⟩

theorem stack_ok_lo (lo : Nat) (S : List Nat) (n : Nat) (h : stack_ok lo S n) : lo ≤ n := by
  induction S generalizing n with
  | nil => exact h
  | cons a rest ih => have := ih a h.2; have := h.1; omega

theorem stack_ok_mem (lo : Nat) (S : List Nat) (n : Nat) (h : stack_ok lo S n) :
    ∀ e ∈ S, lo ≤ e ∧ e + 9 ≤ n := by
  induction S generalizing n with
  | nil => intro e he; simp at he
  | cons a rest ih =>
    intro e he
    rcases List.mem_cons.1 he with rfl | hr
    · exact ⟨stack_ok_lo lo rest e h.2, h.1⟩
    · have := ih a h.2 e hr
      have := h.1
      omega

theorem translate_asm_loop_depth (l : List COMMAND) (st st2 : EmitState)
    (h : translate_asm_loop l st = some st2) :
    depth_after l st.bracketStack.length = some st2.bracketStack.length := by
  induction l generalizing st with
  | nil =>
    simp only [translate_asm_loop, Option.some.injEq] at h
    simp [depth_after, h]
  | cons cmd rest ih =>
    obtain ⟨st1, hs, hr⟩ := translate_asm_loop_cons cmd rest st st2 h
    have ih1 := ih st1 hr
    obtain ⟨_, hc | hc | hc⟩ := translate_asm_step_cases st st1 cmd hs
    · obtain ⟨h1, h2, rfl⟩ := hc
      simpa [depth_after, h1, h2] using ih1
    · obtain ⟨h1, rfl⟩ := hc
      simpa [depth_after, h1] using ih1
    · obtain ⟨h2, last, tl, hst, rfl⟩ := hc
      have h1 : cmd.type ≠ LOOP_START := by rw [h2]; decide
      simpa [depth_after, h1, h2, hst] using ih1

theorem translate_asm_loop_frame (l : List COMMAND) (T S : List Nat) (st st2 : EmitState) (k : Nat)
    (hst : st.bracketStack = T ++ S) (hd : depth_after l T.length = some k)
    (h : translate_asm_loop l st = some st2) :
    (∃ T2, st2.bracketStack = T2 ++ S ∧ T2.length = k) ∧
      st.code.length ≤ st2.code.length ∧
      ∀ i, i < st.code.length → (∀ e ∈ T, ¬ (e + 5 ≤ i ∧ i < e + 9)) →
        st2.code[i]? = st.code[i]? := by
  induction l generalizing T st k with
  | nil =>
    simp only [translate_asm_loop, Option.some.injEq] at h
    simp only [depth_after, Option.some.injEq] at hd
    subst h
    exact ⟨⟨T, hst, hd⟩, Nat.le_refl _, fun i _ _ => rfl⟩
  | cons cmd rest ih =>
    obtain ⟨st1, hs, hr⟩ := translate_asm_loop_cons cmd rest st st2 h
    obtain ⟨_, hc | hc | hc⟩ := translate_asm_step_cases st st1 cmd hs
    · obtain ⟨h1, h2, hst1⟩ := hc
      simp only [depth_after, h1, h2, if_false] at hd
      have hstk1 : st1.bracketStack = T ++ S := by rw [hst1]; exact hst
      have hcode1 : st1.code = st.code ++ simple_bytes cmd := by rw [hst1]
      obtain ⟨hT, hlen, hfr⟩ := ih T st1 k hstk1 hd hr
      rw [hcode1, List.length_append] at hlen
      refine ⟨hT, by omega, fun i hi hp => ?_⟩
      rw [hfr i (by rw [hcode1, List.length_append]; omega) hp, hcode1]
      exact List.getElem?_append_left hi
    · obtain ⟨h1, hst1⟩ := hc
      simp only [depth_after, h1, if_true] at hd
      have hstk1 : st1.bracketStack = (st.code.length :: T) ++ S := by rw [hst1]; simp [hst]
      have hcode1 : st1.code = st.code ++ [0x80, 0x3a, 0x00, 0x0f, 0x84, 0x12, 0x34, 0x56, 0x78] := by
        rw [hst1]
      obtain ⟨hT, hlen, hfr⟩ := ih (st.code.length :: T) st1 k hstk1 (by simpa using hd) hr
      rw [hcode1, List.length_append] at hlen
      refine ⟨hT, by omega, fun i hi hp => ?_⟩
      rw [hfr i (by rw [hcode1, List.length_append]; omega) ?_, hcode1]
      · exact List.getElem?_append_left hi
      · intro e he
        rcases List.mem_cons.1 he with rfl | he
        · omega
        · exact hp e he
    · obtain ⟨h2, last, tl, hstk, hst1⟩ := hc
      have h1 : cmd.type ≠ LOOP_START := by rw [h2]; decide
      simp only [depth_after, h1, h2, if_false, if_true] at hd
      cases T with
      | nil => simp at hd
      | cons e T1 =>
        simp only [List.length_cons] at hd
        have he : last = e ∧ tl = T1 ++ S := by
          rw [hstk] at hst
          simpa using hst
        have hstk1 : st1.bracketStack = T1 ++ S := by rw [hst1]; exact he.2
        have hcode1 : st1.code = loop_end_code st.code last := by rw [hst1]
        obtain ⟨hT, hlen, hfr⟩ := ih T1 st1 k hstk1 hd hr
        rw [hcode1, loop_end_code_length] at hlen
        refine ⟨hT, by omega, fun i hi hp => ?_⟩
        rw [hfr i (by rw [hcode1, loop_end_code_length]; omega)
          (fun x hx => hp x (by simp [hx])), hcode1]
        exact loop_end_code_frame _ _ _ hi (by rw [he.1]; exact hp e (by simp))


theorem sentinel_at_congr (code1 code2 : List Nat) (e : Nat)
    (h : ∀ i, e + 5 ≤ i → i < e + 9 → code2[i]? = code1[i]?) (hs : sentinel_at code1 e) :
    sentinel_at code2 e := by
  unfold sentinel_at at *
  rw [h (e + 5) (by omega) (by omega), h (e + 6) (by omega) (by omega),
    h (e + 7) (by omega) (by omega), h (e + 8) (by omega) (by omega)]
  exact hs

theorem sentinel_at_append (code X : List Nat) (e : Nat) (he : e + 9 ≤ code.length)
    (hs : sentinel_at code e) : sentinel_at (code ++ X) e :=
  sentinel_at_congr code (code ++ X) e
    (fun i _ h2 => List.getElem?_append_left (by omega)) hs

theorem emit_inv_step (lo : Nat) (st st1 : EmitState) (cmd : COMMAND) (hinv : emit_inv lo st)
    (h : translate_asm_step st cmd = some st1) : emit_inv lo st1 := by
  obtain ⟨hok, hsen⟩ := hinv
  have hmem := stack_ok_mem lo _ _ hok
  obtain ⟨_, hc | hc | hc⟩ := translate_asm_step_cases st st1 cmd h
  · obtain ⟨_, _, rfl⟩ := hc
    refine ⟨stack_ok_mono lo _ _ _ hok (by simp), fun e he => ?_⟩
    exact sentinel_at_append _ _ e (hmem e he).2 (hsen e he)
  · obtain ⟨_, rfl⟩ := hc
    refine ⟨⟨by simp, hok⟩, fun e he => ?_⟩
    rcases List.mem_cons.1 he with rfl | he
    · unfold sentinel_at
      rw [List.getElem?_append_right (by omega), List.getElem?_append_right (by omega),
        List.getElem?_append_right (by omega), List.getElem?_append_right (by omega)]
      simp
    · exact sentinel_at_append _ _ e (hmem e he).2 (hsen e he)
  · obtain ⟨_, last, tl, hstk, rfl⟩ := hc
    rw [hstk] at hok hsen hmem
    refine ⟨stack_ok_mono lo _ _ _ hok.2 (by rw [loop_end_code_length]; have := hok.1; omega),
      fun e he => ?_⟩
    have h1 := (stack_ok_mem lo tl last hok.2 e he).2
    have h2 := hok.1
    refine sentinel_at_congr st.code _ e (fun i _ _ => ?_) (hsen e (by simp [he]))
    exact loop_end_code_frame _ _ _ (by omega) (by omega)

theorem emit_inv_loop (lo : Nat) (l : List COMMAND) (st st2 : EmitState) (hinv : emit_inv lo st)
    (h : translate_asm_loop l st = some st2) : emit_inv lo st2 := by
  induction l generalizing st with
  | nil =>
    simp only [translate_asm_loop, Option.some.injEq] at h
    exact h ▸ hinv
  | cons cmd rest ih =>
    obtain ⟨st1, hs, hr⟩ := translate_asm_loop_cons cmd rest st st2 h
    exact ih st1 (emit_inv_step lo st st1 cmd hinv hs) hr

theorem translate_asm_step_success (lo : Nat) (st : EmitState) (cmd : COMMAND)
    (hinv : emit_inv lo st) (hv : value_ok cmd)
    (hne : cmd.type = LOOP_END → st.bracketStack ≠ []) :
    ∃ st1, translate_asm_step st cmd = some st1 := by
  by_cases h1 : cmd.type = LOOP_START
  · rw [translate_asm_step_loop_start st cmd h1, if_pos hv]
    exact ⟨_, rfl⟩
  by_cases h2 : cmd.type = LOOP_END
  · rw [translate_asm_step_loop_end st cmd h2, if_pos hv]
    obtain ⟨hok, hsen⟩ := hinv
    cases hstk : st.bracketStack with
    | nil => exact absurd hstk (hne h2)
    | cons last tl =>
      rw [hstk] at hok hsen
      have hs := hsen last (by simp)
      have := sentinel_at_append st.code ([0x80, 0x3a, 0x00, 0x0f, 0x85] ++
        (List.range 4).map (fun i =>
          byte_at (to_ulong (-(to_long (to_ulong ((st.code.length : Int) - (last : Int)))))) i))
        last hok.1 hs
      rw [← List.append_assoc] at this
      simp only [this, if_true]
      exact ⟨_, rfl⟩
  · rw [translate_asm_step_simple st cmd h1 h2, if_pos hv]
    exact ⟨_, rfl⟩

theorem translate_asm_loop_success (lo : Nat) (l : List COMMAND) (st : EmitState) (k : Nat)
    (hinv : emit_inv lo st) (hv : ∀ cmd ∈ l, value_ok cmd)
    (hd : depth_after l st.bracketStack.length = some k) :
    ∃ st2, translate_asm_loop l st = some st2 := by
  induction l generalizing st with
  | nil => exact ⟨st, rfl⟩
  | cons cmd rest ih =>
    have hne : cmd.type = LOOP_END → st.bracketStack ≠ [] := by
      intro h2 hnil
      have h1 : cmd.type ≠ LOOP_START := by rw [h2]; decide
      simp [depth_after, h1, h2, hnil] at hd
    obtain ⟨st1, hs⟩ := translate_asm_step_success lo st cmd hinv (hv cmd (by simp)) hne
    have hd1 : depth_after rest st1.bracketStack.length = some k := by
      have := translate_asm_loop_depth [cmd] st st1 (by simp [translate_asm_loop, hs])
      obtain ⟨_, hc | hc | hc⟩ := translate_asm_step_cases st st1 cmd hs
      · obtain ⟨h1, h2, rfl⟩ := hc
        simpa [depth_after, h1, h2] using hd
      · obtain ⟨h1, rfl⟩ := hc
        simpa [depth_after, h1] using hd
      · obtain ⟨h2, last, tl, hstk, rfl⟩ := hc
        have h1 : cmd.type ≠ LOOP_START := by rw [h2]; decide
        simpa [depth_after, h1, h2, hstk] using hd
    obtain ⟨st2, hr⟩ := ih st1 (emit_inv_step lo st st1 cmd hinv hs)
      (fun c hc => hv c (by simp [hc])) hd1
    exact ⟨st2, by simp [translate_asm_loop, hs, hr]⟩

theorem prologue_length (data : Nat) : (prologue data).length = 10 := by
  simp [prologue]

theorem emit_inv_init (data : Nat) :
    emit_inv 10 { code := prologue data, bracketStack := [] } := by
  refine ⟨?_, fun e he => by simp at he⟩
  simp [stack_ok, prologue_length]

theorem translate_asm_eq_some (l : List COMMAND) (data : Nat) (B : List Nat) :
    translate_asm l data = some B ↔
      ∃ st, translate_asm_loop l { code := prologue data, bracketStack := [] } = some st ∧
        st.bracketStack = [] ∧ B = st.code ++ [0xc3] := by
  unfold translate_asm
  cases translate_asm_loop l { code := prologue data, bracketStack := [] } with
  | none => simp
  | some st =>
    by_cases hs : st.bracketStack = []
    · simp only [hs, if_true, Option.some.injEq]
      constructor
      · intro h; exact ⟨st, rfl, hs, h.symm⟩
      · rintro ⟨st1, h1, _, h3⟩; rw [h3, h1]
    · simp only [hs, if_false]
      constructor
      · intro h; exact absurd h (by simp)
      · rintro ⟨st1, h1, h2, _⟩; rw [← Option.some.inj h1] at h2; exact absurd h2 hs


theorem translate_asm_loop_append_some (l1 l2 : List COMMAND) (st st2 : EmitState)
    (h : translate_asm_loop (l1 ++ l2) st = some st2) :
    ∃ st1, translate_asm_loop l1 st = some st1 ∧ translate_asm_loop l2 st1 = some st2 := by
  rw [translate_asm_loop_append] at h
  split at h
  · exact absurd h (by simp)
  · rename_i st1 hs
    exact ⟨st1, hs, h⟩

theorem le32_of_bytes (B : List Nat) (k x : Nat)
    (h : ∀ j, j < 4 → B[k + j]? = some (byte_at x j)) : le32 B k = x % 2 ^ 32 := by
  have h0 := h 0 (by omega)
  have h1 := h 1 (by omega)
  have h2 := h 2 (by omega)
  have h3 := h 3 (by omega)
  simp only [Nat.add_zero, byte_at_eq] at h0 h1 h2 h3
  simp only [le32, List.getD_eq_getElem?_getD, h0, h1, h2, h3, Option.getD_some]
  norm_num
  omega

theorem to_ulong_of_nat (d : Nat) (h : d < 2 ^ 64) : to_ulong (d : Int) = d := by
  unfold to_ulong
  omega

theorem to_long_of_small (d : Nat) (h : d < 2 ^ 63) : to_long d = (d : Int) := by
  unfold to_long
  have : d % 2 ^ 64 = d := Nat.mod_eq_of_lt (by omega)
  rw [this, if_pos h]

theorem to_ulong_neg (d : Nat) (h0 : 0 < d) (h : d < 2 ^ 64) :
    to_ulong (-(d : Int)) = 2 ^ 64 - d := by
  unfold to_ulong
  omega

theorem prologue_getElem? (data i : Nat) (hi : i < 8) :
    (prologue data)[2 + i]? = some (data % 2 ^ 64 / 256 ^ i % 256) := by
  unfold prologue
  rw [List.getElem?_append_right (by simp)]
  simp [hi, byte_at_eq]

theorem simple_bytes_control (t : Nat) (v w : Int) (ht : is_control t) :
    simple_bytes { type := t, value := v } = simple_bytes { type := t, value := w } := by
  have := not_arith_of_control t ht
  simp only [is_arith, not_or] at this
  simp [simple_bytes, this.1, this.2.1, this.2.2.1, this.2.2.2]

theorem translate_asm_step_control (st : EmitState) (t : Nat) (v w : Int) (ht : is_control t)
    (hv : value_ok { type := t, value := v }) (hw : value_ok { type := t, value := w }) :
    translate_asm_step st { type := t, value := v } =
      translate_asm_step st { type := t, value := w } := by
  by_cases h1 : t = LOOP_START
  · rw [translate_asm_step_loop_start st _ h1, translate_asm_step_loop_start st _ h1,
      if_pos hv, if_pos hw]
  by_cases h2 : t = LOOP_END
  · rw [translate_asm_step_loop_end st _ h2, translate_asm_step_loop_end st _ h2,
      if_pos hv, if_pos hw]
  · rw [translate_asm_step_simple st _ h1 h2, translate_asm_step_simple st _ h1 h2,
      if_pos hv, if_pos hw, simple_bytes_control t v w ht]

theorem translate_asm_step_value_not_ok (st : EmitState) (cmd : COMMAND) (hv : ¬ value_ok cmd) :
    translate_asm_step st cmd = none := by
  by_cases h1 : cmd.type = LOOP_START
  · rw [translate_asm_step_loop_start st _ h1, if_neg hv]
  by_cases h2 : cmd.type = LOOP_END
  · rw [translate_asm_step_loop_end st _ h2, if_neg hv]
  · rw [translate_asm_step_simple st _ h1 h2, if_neg hv]

theorem translate_asm_congr_step (pre post : List COMMAND) (c1 c2 : COMMAND) (data : Nat)
    (h : ∀ st, translate_asm_step st c1 = translate_asm_step st c2) :
    translate_asm (pre ++ c1 :: post) data = translate_asm (pre ++ c2 :: post) data := by
  unfold translate_asm
  rw [translate_asm_loop_append, translate_asm_loop_append]
  cases translate_asm_loop pre { code := prologue data, bracketStack := [] } with
  | none => rfl
  | some st => simp only [translate_asm_loop, h st]

theorem translate_asm_value_not_ok (pre post : List COMMAND) (cmd : COMMAND) (data : Nat)
    (hv : ¬ value_ok cmd) : translate_asm (pre ++ cmd :: post) data = none := by
  unfold translate_asm
  rw [translate_asm_loop_append]
  cases translate_asm_loop pre { code := prologue data, bracketStack := [] } with
  | none => rfl
  | some st => simp only [translate_asm_loop, translate_asm_step_value_not_ok st cmd hv]


/-! ## The emitter: claims -/

/-- C2 (bracket balance). For an instruction list whose counts are all in 1..127 and any
tape address, `translate_asm` produces a buffer if and only if the subsequence of
`LOOP_START` / `LOOP_END` is balanced and properly nested; the lists folded from the
sources `[` and `]` are both refused. -/
theorem bracket_balance (l : List COMMAND) (data : Nat)
    (hv : ∀ cmd ∈ l, 1 ≤ cmd.value ∧ cmd.value ≤ 127) :
    ((∃ B, translate_asm l data = some B) ↔ balanced l) ∧
      translate_asm (translate_command [91]) data = none ∧
      translate_asm (translate_command [93]) data = none := by
  have key : ∀ l : List COMMAND, (∀ cmd ∈ l, 1 ≤ cmd.value ∧ cmd.value ≤ 127) →
      ((∃ B, translate_asm l data = some B) ↔ balanced l) := by
    intro l hv
    constructor
    · rintro ⟨B, hB⟩
      obtain ⟨st, hst, hs, _⟩ := (translate_asm_eq_some l data B).1 hB
      have := translate_asm_loop_depth l _ st hst
      simpa [balanced, hs] using this
    · intro hb
      have hv2 : ∀ cmd ∈ l, value_ok cmd := fun cmd hc => ⟨by have := hv cmd hc; omega, (hv cmd hc).2⟩
      obtain ⟨st, hst⟩ := translate_asm_loop_success 10 l
        { code := prologue data, bracketStack := [] } 0 (emit_inv_init data) hv2 hb
      have hd := translate_asm_loop_depth l _ st hst
      have hs : st.bracketStack = [] := by
        have : some 0 = some st.bracketStack.length := by
          rw [← hd]; exact hb.symm
        exact List.length_eq_zero.1 (Option.some.inj this).symm
      exact ⟨st.code ++ [0xc3], (translate_asm_eq_some l data _).2 ⟨st, hst, hs, rfl⟩⟩
  have none_of_not : ∀ l : List COMMAND, (∀ cmd ∈ l, 1 ≤ cmd.value ∧ cmd.value ≤ 127) →
      ¬ balanced l → translate_asm l data = none := by
    intro l hv hnb
    cases h : translate_asm l data with
    | none => rfl
    | some B => exact absurd ((key l hv).1 ⟨B, h⟩) hnb
  refine ⟨key l hv, ?_, ?_⟩
  · exact none_of_not _ (fun cmd hc => ⟨(folded_translate_command _ cmd hc).1,
      (folded_translate_command _ cmd hc).2.1⟩) (by decide)
  · exact none_of_not _ (fun cmd hc => ⟨(folded_translate_command _ cmd hc).1,
      (folded_translate_command _ cmd hc).2.1⟩) (by decide)

/-- Witness of C2 on the folded list of `[+]` at tape address 0. -/
theorem bracket_balance_witness :
    ((∃ B, translate_asm [{ type := 91, value := 1 }, { type := 43, value := 1 },
        { type := 93, value := 1 }] 0 = some B) ↔
      balanced [{ type := 91, value := 1 }, { type := 43, value := 1 },
        { type := 93, value := 1 }]) ∧
      translate_asm (translate_command [91]) 0 = none ∧
      translate_asm (translate_command [93]) 0 = none :=
  bracket_balance [{ type := 91, value := 1 }, { type := 43, value := 1 },
    { type := 93, value := 1 }] 0 (by decide)

/-- C9 (prologue and epilogue). When `translate_asm` succeeds with buffer `B` for a tape
address `a < 2^64`, `B` starts with `0x48 0xBA`, its bytes 2..9 are the little-endian
encoding of `a`, and its last byte is `0xC3`; for the empty instruction list `B` is
exactly these 11 bytes. -/
theorem prologue_and_epilogue (l : List COMMAND) (a : Nat) (B : List Nat) (ha : a < 2 ^ 64)
    (hB : translate_asm l a = some B) :
    11 ≤ B.length ∧ B[0]? = some 0x48 ∧ B[1]? = some 0xba ∧
      (∀ i, i < 8 → B[2 + i]? = some (a / 256 ^ i % 256)) ∧
      ((List.range 8).map (fun i => B.getD (2 + i) 0 * 256 ^ i)).sum = a ∧
      B.getLast? = some 0xc3 ∧
      translate_asm [] a =
        some ([0x48, 0xba] ++ (List.range 8).map (fun i => a / 256 ^ i % 256) ++ [0xc3]) := by
  obtain ⟨st, hst, hs, rfl⟩ := (translate_asm_eq_some l a B).1 hB
  have hd := translate_asm_loop_depth l _ st hst
  obtain ⟨_, hlen, hfr⟩ := translate_asm_loop_frame l [] [] _ st _ rfl hd hst
  simp only [prologue_length] at hlen hfr
  have hfr2 : ∀ i, i < 10 → (st.code ++ [0xc3])[i]? = (prologue a)[i]? := by
    intro i hi
    rw [List.getElem?_append_left (by omega)]
    exact hfr i hi (fun e he => by simp at he)
  have hmod : a % 2 ^ 64 = a := Nat.mod_eq_of_lt ha
  have hbytes : ∀ i, i < 8 → (st.code ++ [0xc3])[2 + i]? = some (a / 256 ^ i % 256) := by
    intro i hi
    rw [hfr2 (2 + i) (by omega), prologue_getElem? a i hi, hmod]
  refine ⟨by simp; omega, ?_, ?_, hbytes, ?_, by simp, ?_⟩
  · rw [hfr2 0 (by omega)]; simp [prologue]
  · rw [hfr2 1 (by omega)]; simp [prologue]
  · have h0 := hbytes 0 (by omega)
    have h1 := hbytes 1 (by omega)
    have h2 := hbytes 2 (by omega)
    have h3 := hbytes 3 (by omega)
    have h4 := hbytes 4 (by omega)
    have h5 := hbytes 5 (by omega)
    have h6 := hbytes 6 (by omega)
    have h7 := hbytes 7 (by omega)
    simp only [show List.range 8 = [0, 1, 2, 3, 4, 5, 6, 7] from rfl, List.map_cons, List.map_nil,
      List.sum_cons, List.sum_nil, List.getD_eq_getElem?_getD, h0, h1, h2, h3, h4, h5, h6, h7,
      Option.getD_some]
    norm_num
    omega
  · simp only [translate_asm, translate_asm_loop, if_true, prologue,
      show List.range 8 = [0, 1, 2, 3, 4, 5, 6, 7] from rfl, List.map_cons, List.map_nil,
      byte_at_eq, hmod]

/-- Witness of C9 on the folded list of `+` at tape address `0x0102030405060708`. -/
theorem prologue_and_epilogue_witness :
    11 ≤ [72, 186, 8, 7, 6, 5, 4, 3, 2, 1, 128, 2, 1, 195].length ∧
      [72, 186, 8, 7, 6, 5, 4, 3, 2, 1, 128, 2, 1, 195][0]? = some 0x48 ∧
      [72, 186, 8, 7, 6, 5, 4, 3, 2, 1, 128, 2, 1, 195][1]? = some 0xba ∧
      (∀ i, i < 8 → [72, 186, 8, 7, 6, 5, 4, 3, 2, 1, 128, 2, 1, 195][2 + i]? =
        some (0x0102030405060708 / 256 ^ i % 256)) ∧
      ((List.range 8).map (fun i =>
        [72, 186, 8, 7, 6, 5, 4, 3, 2, 1, 128, 2, 1, 195].getD (2 + i) 0 * 256 ^ i)).sum =
          0x0102030405060708 ∧
      [72, 186, 8, 7, 6, 5, 4, 3, 2, 1, 128, 2, 1, 195].getLast? = some 0xc3 ∧
      translate_asm [] 0x0102030405060708 =
        some ([0x48, 0xba] ++ (List.range 8).map (fun i => 0x0102030405060708 / 256 ^ i % 256) ++
          [0xc3]) :=
  prologue_and_epilogue [{ type := 43, value := 1 }] 0x0102030405060708
    [72, 186, 8, 7, 6, 5, 4, 3, 2, 1, 128, 2, 1, 195] (by decide) (by decide)

/-- C10, as stated, fails: the range assertion on the count is made for every kind. The
list made of one `OUTPUT` is accepted with count 1 and refused with count 0, with
count -1 and with count 128. -/
theorem count_ignored_counterexample :
    translate_asm [{ type := OUTPUT, value := 1 }] 0 =
        some ([0x48, 0xba, 0, 0, 0, 0, 0, 0, 0, 0] ++ output_bytes ++ [0xc3]) ∧
      translate_asm [{ type := OUTPUT, value := 0 }] 0 = none ∧
      translate_asm [{ type := OUTPUT, value := -1 }] 0 = none ∧
      translate_asm [{ type := OUTPUT, value := 128 }] 0 = none := by
  decide

/-- C10 (amended). For an instruction of kind `INPUT`, `OUTPUT`, `LOOP_START` or
`LOOP_END` whose count is in 1..127, replacing the count by any other integer in 1..127
leaves the result of `translate_asm` unchanged; replacing it by an integer outside
1..127 makes `translate_asm` fail. -/
theorem count_ignored_within_range (pre post : List COMMAND) (cmd : COMMAND)
    (data : Nat) (hk : is_control cmd.type) (hc : 1 ≤ cmd.value ∧ cmd.value ≤ 127) :
    (∀ v : Int, 1 ≤ v ∧ v ≤ 127 →
        translate_asm (pre ++ { type := cmd.type, value := v } :: post) data =
          translate_asm (pre ++ cmd :: post) data) ∧
      (∀ v : Int, ¬ (1 ≤ v ∧ v ≤ 127) →
        translate_asm (pre ++ { type := cmd.type, value := v } :: post) data = none) := by
  constructor
  · intro v hv
    apply translate_asm_congr_step
    intro st
    exact translate_asm_step_control st cmd.type v cmd.value hk
      ⟨by show (0 : Int) < v; omega, hv.2⟩ ⟨by show (0 : Int) < cmd.value; omega, hc.2⟩
  · intro v hv
    apply translate_asm_value_not_ok
    intro h
    exact hv ⟨by have : (0 : Int) < v := h.1; omega, h.2⟩

/-- Witness of C10 (amended) on `+.+`: count 5 on the `OUTPUT` changes nothing, count 0 fails. -/
theorem count_ignored_within_range_witness :
    translate_asm ([{ type := 43, value := 1 }] ++
          { type := 46, value := 5 } :: [{ type := 43, value := 1 }]) 0 =
        translate_asm ([{ type := 43, value := 1 }] ++
          { type := 46, value := 1 } :: [{ type := 43, value := 1 }]) 0 ∧
      translate_asm ([{ type := 43, value := 1 }] ++
          { type := 46, value := 0 } :: [{ type := 43, value := 1 }]) 0 = none :=
  ⟨(count_ignored_within_range [{ type := 43, value := 1 }] [{ type := 43, value := 1 }]
      { type := 46, value := 1 } 0 (by decide) (by decide)).1 5 (by decide),
    (count_ignored_within_range [{ type := 43, value := 1 }] [{ type := 43, value := 1 }]
      { type := 46, value := 1 } 0 (by decide) (by decide)).2 0 (by decide)⟩


theorem drop_take_eq (B : List Nat) (k : Nat) (X : List Nat)
    (h : ∀ j, j < X.length → B[k + j]? = X[j]?) : (B.drop k).take X.length = X := by
  apply List.ext_getElem?
  intro i
  by_cases hi : i < X.length
  · rw [List.getElem?_take_of_lt hi, List.getElem?_drop, h i hi]
  · rw [List.getElem?_take_eq_none (by omega), List.getElem?_eq_none (by omega)]

theorem loop_end_code_opcode (code : List Nat) (last j : Nat) (hl : last + 9 ≤ code.length)
    (hj : j < 5) :
    (loop_end_code code last)[code.length + j]? = [0x80, 0x3a, 0x00, 0x0f, 0x85][j]? := by
  rw [loop_end_code, patch4_getElem?, if_neg (by omega), List.append_assoc,
    List.getElem?_append_right (by omega)]
  simp only [Nat.add_sub_cancel_left]
  exact List.getElem?_append_left (by simpa using hj)

/-- C1 (branch symmetry). Let `translate_asm` succeed with a buffer `B` shorter than
`2^31` on a list that contains a `LOOP_START`, then a balanced list `mid`, then a
`LOOP_END` (a properly matched pair). With `L` the buffer offset at which the 9 bytes of
the `[` are emitted and `R` the offset at which the 9 bytes of the `]` are emitted, both
sequences lie in `B`, start with their five opcode bytes, and the signed 32-bit
little-endian displacement at `B[L+5..L+8]` added to `L+9` is `R+9`, while the one at
`B[R+5..R+8]` added to `R+9` is `L+9`. -/
theorem branch_symmetry (pre mid post : List COMMAND) (lb rb : COMMAND) (data : Nat)
    (B : List Nat) (hlb : lb.type = LOOP_START) (hrb : rb.type = LOOP_END)
    (hmid : balanced mid)
    (hB : translate_asm (pre ++ lb :: (mid ++ rb :: post)) data = some B)
    (hlen : B.length < 2 ^ 31) :
    ∃ stL stR,
      translate_asm_loop pre { code := prologue data, bracketStack := [] } = some stL ∧
      translate_asm_loop (pre ++ lb :: mid) { code := prologue data, bracketStack := [] } =
        some stR ∧
      stL.code.length + 9 ≤ stR.code.length ∧ stR.code.length + 9 ≤ B.length ∧
      (B.drop stL.code.length).take 5 = [0x80, 0x3a, 0x00, 0x0f, 0x84] ∧
      (B.drop stR.code.length).take 5 = [0x80, 0x3a, 0x00, 0x0f, 0x85] ∧
      le32s B (stL.code.length + 5) + ((stL.code.length + 9 : Nat) : Int) =
        ((stR.code.length + 9 : Nat) : Int) ∧
      le32s B (stR.code.length + 5) + ((stR.code.length + 9 : Nat) : Int) =
        ((stL.code.length + 9 : Nat) : Int) := by
  obtain ⟨st4, hst4, hs4, rfl⟩ := (translate_asm_eq_some _ data B).1 hB
  obtain ⟨stL, hpre, hrest⟩ := translate_asm_loop_append_some _ _ _ _ hst4
  obtain ⟨st1, hstep1, hrest⟩ := translate_asm_loop_cons _ _ _ _ hrest
  obtain ⟨st2, hmidrun, hrest⟩ := translate_asm_loop_append_some _ _ _ _ hrest
  obtain ⟨st3, hstep3, hpost⟩ := translate_asm_loop_cons _ _ _ _ hrest
  -- the `[` step
  obtain ⟨_, hc | hc | hc⟩ := translate_asm_step_cases _ _ _ hstep1
  · exact absurd hlb hc.1
  swap
  · rw [hlb] at hc; exact absurd hc.1 (by decide)
  obtain ⟨_, hst1⟩ := hc
  have hcode1 : st1.code = stL.code ++ [0x80, 0x3a, 0x00, 0x0f, 0x84, 0x12, 0x34, 0x56, 0x78] := by
    rw [hst1]
  have hstk1 : st1.bracketStack = [] ++ stL.code.length :: stL.bracketStack := by rw [hst1]; rfl
  -- the balanced middle
  obtain ⟨⟨T2, hT2, hT2len⟩, hlen12, hfr12⟩ :=
    translate_asm_loop_frame mid [] _ st1 st2 0 hstk1 hmid hmidrun
  have hstk2 : st2.bracketStack = stL.code.length :: stL.bracketStack := by
    rw [hT2, List.length_eq_zero.1 hT2len]; rfl
  rw [hcode1, List.length_append] at hlen12
  simp only [List.length_cons, List.length_nil] at hlen12
  -- the `]` step
  obtain ⟨_, hc | hc | hc⟩ := translate_asm_step_cases _ _ _ hstep3
  · exact absurd hrb hc.2.1
  · rw [hrb] at hc; exact absurd hc.1 (by decide)
  obtain ⟨_, last, tl, hstk2b, hst3⟩ := hc
  rw [hstk2] at hstk2b
  obtain ⟨hlast, htl⟩ := List.cons.inj hstk2b
  have hcode3 : st3.code = loop_end_code st2.code stL.code.length := by rw [hst3, ← hlast]
  have hstk3 : st3.bracketStack = stL.bracketStack ++ [] := by rw [hst3, ← htl]; simp
  -- the rest of the list
  have hinvL := emit_inv_loop 10 pre _ stL (emit_inv_init data) hpre
  have hmemL := stack_ok_mem 10 _ _ hinvL.1
  have hd := translate_asm_loop_depth post st3 st4 hpost
  rw [hstk3, List.append_nil] at hd
  obtain ⟨_, hlen34, hfr34⟩ :=
    translate_asm_loop_frame post stL.bracketStack [] st3 st4 _ hstk3 hd hpost
  rw [hcode3, loop_end_code_length] at hlen34 hfr34
  have hBget : ∀ i, stL.code.length ≤ i → i < st2.code.length + 9 →
      (st4.code ++ [0xc3])[i]? = (loop_end_code st2.code stL.code.length)[i]? := by
    intro i h1 h2
    rw [List.getElem?_append_left (by omega)]
    exact hfr34 i h2 (fun e he => by have := (hmemL e he).2; omega)
  have hRun : translate_asm_loop (pre ++ lb :: mid) { code := prologue data, bracketStack := [] } =
      some st2 := by
    rw [translate_asm_loop_append, hpre]
    simp only [translate_asm_loop, hstep1, hmidrun]
  have hBlen : (st4.code ++ [0xc3]).length = st4.code.length + 1 := by simp
  rw [hBlen] at hlen
  -- the displacement values
  have hdlt : st2.code.length - stL.code.length < 2 ^ 31 := by omega
  have hsub : ((st2.code.length : Int) - (stL.code.length : Int)) =
      ((st2.code.length - stL.code.length : Nat) : Int) := by omega
  have hfw : ∀ j, j < 4 → (st4.code ++ [0xc3])[stL.code.length + 5 + j]? =
      some (byte_at (st2.code.length - stL.code.length) j) := by
    intro j hj
    rw [hBget _ (by omega) (by omega), loop_end_code_forward _ _ _ (by omega) hj, hsub,
      to_ulong_of_nat _ (by omega), to_long_of_small _ (by omega), to_ulong_of_nat _ (by omega)]
  have hbw : ∀ j, j < 4 → (st4.code ++ [0xc3])[st2.code.length + 5 + j]? =
      some (byte_at (2 ^ 64 - (st2.code.length - stL.code.length)) j) := by
    intro j hj
    rw [hBget _ (by omega) (by omega), loop_end_code_backward _ _ _ (by omega) hj, hsub,
      to_ulong_of_nat _ (by omega), to_long_of_small _ (by omega),
      to_ulong_neg _ (by omega) (by omega)]
  have hle1 := le32_of_bytes _ _ _ hfw
  have hle2 := le32_of_bytes _ _ _ hbw
  refine ⟨stL, st2, hpre, hRun, by omega, by omega, ?_, ?_, ?_, ?_⟩
  · refine drop_take_eq _ _ [0x80, 0x3a, 0x00, 0x0f, 0x84] (fun j hj => ?_)
    simp only [List.length_cons, List.length_nil] at hj
    rw [hBget _ (by omega) (by omega), loop_end_code_frame _ _ _ (by omega) (by omega),
      hfr12 _ (by rw [hcode1, List.length_append]; simp; omega) (fun e he => by simp at he),
      hcode1, List.getElem?_append_right (by omega)]
    simp only [Nat.add_sub_cancel_left]
    have hsplit : ([0x80, 0x3a, 0x00, 0x0f, 0x84, 0x12, 0x34, 0x56, 0x78] : List Nat) =
        [0x80, 0x3a, 0x00, 0x0f, 0x84] ++ [0x12, 0x34, 0x56, 0x78] := rfl
    rw [hsplit]
    exact List.getElem?_append_left (by simpa using hj)
  · refine drop_take_eq _ _ [0x80, 0x3a, 0x00, 0x0f, 0x85] (fun j hj => ?_)
    simp only [List.length_cons, List.length_nil] at hj
    rw [hBget _ (by omega) (by omega), loop_end_code_opcode _ _ _ (by omega) (by omega)]
  · unfold le32s
    rw [hle1]
    split <;> omega
  · unfold le32s
    rw [hle2]
    split <;> omega


/-- Witness of C1 on the folded list of `+[-]` at tape address 0: the `[` sequence is at
offset 13 and the `]` sequence at offset 25 of the 35-byte buffer. -/
theorem branch_symmetry_witness :
    ∃ stL stR,
      translate_asm_loop [{ type := 43, value := 1 }]
        { code := prologue 0, bracketStack := [] } = some stL ∧
      translate_asm_loop ([{ type := 43, value := 1 }] ++
          { type := 91, value := 1 } :: [{ type := 45, value := 1 }])
        { code := prologue 0, bracketStack := [] } = some stR ∧
      stL.code.length + 9 ≤ stR.code.length ∧
      stR.code.length + 9 ≤
        [72, 186, 0, 0, 0, 0, 0, 0, 0, 0, 128, 2, 1, 128, 58, 0, 15, 132, 12, 0, 0, 0, 128, 42, 1,
          128, 58, 0, 15, 133, 244, 255, 255, 255, 195].length ∧
      (([72, 186, 0, 0, 0, 0, 0, 0, 0, 0, 128, 2, 1, 128, 58, 0, 15, 132, 12, 0, 0, 0, 128, 42, 1,
          128, 58, 0, 15, 133, 244, 255, 255, 255, 195] : List Nat).drop stL.code.length).take 5 =
        [0x80, 0x3a, 0x00, 0x0f, 0x84] ∧
      (([72, 186, 0, 0, 0, 0, 0, 0, 0, 0, 128, 2, 1, 128, 58, 0, 15, 132, 12, 0, 0, 0, 128, 42, 1,
          128, 58, 0, 15, 133, 244, 255, 255, 255, 195] : List Nat).drop stR.code.length).take 5 =
        [0x80, 0x3a, 0x00, 0x0f, 0x85] ∧
      le32s [72, 186, 0, 0, 0, 0, 0, 0, 0, 0, 128, 2, 1, 128, 58, 0, 15, 132, 12, 0, 0, 0, 128, 42, 1,
          128, 58, 0, 15, 133, 244, 255, 255, 255, 195] (stL.code.length + 5) +
          ((stL.code.length + 9 : Nat) : Int) = ((stR.code.length + 9 : Nat) : Int) ∧
      le32s [72, 186, 0, 0, 0, 0, 0, 0, 0, 0, 128, 2, 1, 128, 58, 0, 15, 132, 12, 0, 0, 0, 128, 42, 1,
          128, 58, 0, 15, 133, 244, 255, 255, 255, 195] (stR.code.length + 5) +
          ((stR.code.length + 9 : Nat) : Int) = ((stL.code.length + 9 : Nat) : Int) :=
  branch_symmetry [{ type := 43, value := 1 }] [{ type := 45, value := 1 }] []
    { type := 91, value := 1 } { type := 93, value := 1 } 0
    [72, 186, 0, 0, 0, 0, 0, 0, 0, 0, 128, 2, 1, 128, 58, 0, 15, 132, 12, 0, 0, 0, 128, 42, 1,
      128, 58, 0, 15, 133, 244, 255, 255, 255, 195]
    (by decide) (by decide) (by decide) (by decide) (by decide)


/-! ## Maximal folding -/

theorem not_mergeable_step (tmp : List COMMAND) (c : Nat)
    (h : List.Chain' not_mergeable tmp) :
    List.Chain' not_mergeable (translate_command_step tmp c) := by
  rcases eq_nil_or_snoc tmp with h0 | ⟨xs, x, h0⟩
  · subst h0
    rw [translate_command_step_nil]
    exact List.chain'_singleton _
  · subst h0
    rw [translate_command_step_concat]
    rw [List.chain'_append] at h
    split
    · rw [List.chain'_append]
      refine ⟨h.1, List.chain'_singleton _, ?_⟩
      intro w hw y hy
      simp only [List.head?_cons, Option.mem_def, Option.some.injEq] at hy
      subst hy
      exact h.2.2 w hw x (by simp)
    · rename_i hc
      rw [show xs ++ [x, ({ type := c, value := 1 } : COMMAND)] =
        (xs ++ [x]) ++ [{ type := c, value := 1 }] by simp, List.chain'_append]
      refine ⟨List.chain'_append.2 h, List.chain'_singleton _, ?_⟩
      intro w hw y hy
      simp only [List.head?_cons, Option.mem_def, Option.some.injEq] at hy
      have hlast : (xs ++ [x]).getLast? = some x := by simp
      rw [hlast] at hw
      simp only [Option.mem_def, Option.some.injEq] at hw
      subst hy hw
      intro ha ht hlt
      have ht2 : x.type = c := ht
      exact hc ⟨ht2 ▸ ha, hlt, ht2⟩

theorem not_mergeable_translate_command (s : List Nat) :
    List.Chain' not_mergeable (translate_command s) := by
  induction s using List.reverseRecOn with
  | nil => simp [translate_command]
  | append_singleton s c ih => rw [translate_command_concat]; exact not_mergeable_step _ _ ih

/-- C16 (folding is maximal). In `translate_command s` two adjacent instructions of the
same kind among `DP_INC`, `DP_DEC`, `DATA_INC`, `DATA_DEC` never occur with the first of
the two having a count below 127. -/
theorem folding_maximal (s : List Nat) (l1 l2 : List COMMAND) (x y : COMMAND)
    (hs : translate_command s = l1 ++ x :: y :: l2) (ha : is_arith x.type)
    (hk : x.type = y.type) : ¬ x.value < 127 := by
  have h := not_mergeable_translate_command s
  rw [hs, List.chain'_append_cons_cons] at h
  exact h.2.1 ha hk

/-- Witness of C16 on `+` repeated 128 times: the first of the two adjacent `DATA_INC` has
count 127. -/
theorem folding_maximal_witness : ¬ (COMMAND.mk DATA_INC 127).value < 127 :=
  folding_maximal (List.replicate 128 DATA_INC) [] [] (COMMAND.mk DATA_INC 127)
    (COMMAND.mk DATA_INC 1) ((translate_command_replicate_inc 128).trans (by decide))
    (by decide) (by decide)


/-! ## Position independence of the emitted bytes -/

theorem patch4_append_left (A X : List Nat) (p v : Nat) :
    patch4 (A ++ X) (p + A.length) v = A ++ patch4 X p v := by
  apply List.ext_getElem?
  intro i
  rw [patch4_getElem?]
  by_cases hi : i < A.length
  · rw [List.getElem?_append_left hi, if_neg (by omega), List.getElem?_append_left hi]
  · rw [List.getElem?_append_right (by omega), List.getElem?_append_right (by omega),
      patch4_getElem?, List.length_append]
    by_cases hc : p ≤ i - A.length ∧ i - A.length < p + 4 ∧ i - A.length < X.length
    · rw [if_pos hc, if_pos (by omega)]
      congr 2
      omega
    · rw [if_neg hc, if_neg (by omega)]

theorem loop_end_code_relocate (A code : List Nat) (last : Nat) :
    loop_end_code (A ++ code) (last + A.length) = A ++ loop_end_code code last := by
  have hsub : (((A ++ code).length : Nat) : Int) - ((last + A.length : Nat) : Int) =
      ((code.length : Nat) : Int) - ((last : Nat) : Int) := by
    rw [List.length_append]
    push_cast
    ring
  unfold loop_end_code
  rw [hsub, List.append_assoc, List.append_assoc,
    show last + A.length + 5 = (last + 5) + A.length by omega, patch4_append_left]
  simp only [List.append_assoc]

theorem sentinel_at_relocate (A code : List Nat) (last : Nat) :
    sentinel_at (A ++ code) (last + A.length) ↔ sentinel_at code last := by
  unfold sentinel_at
  rw [List.getElem?_append_right (by omega), List.getElem?_append_right (by omega),
    List.getElem?_append_right (by omega), List.getElem?_append_right (by omega),
    show last + A.length + 5 - A.length = last + 5 by omega,
    show last + A.length + 6 - A.length = last + 6 by omega,
    show last + A.length + 7 - A.length = last + 7 by omega,
    show last + A.length + 8 - A.length = last + 8 by omega]

theorem translate_asm_step_relocate (A S : List Nat) (st : EmitState) (cmd : COMMAND)
    (h : cmd.type = LOOP_END → st.bracketStack ≠ [] ∨ S = []) :
    translate_asm_step (relocate A S st) cmd =
      (translate_asm_step st cmd).map (relocate A S) := by
  by_cases h1 : cmd.type = LOOP_START
  · rw [translate_asm_step_loop_start _ cmd h1, translate_asm_step_loop_start _ cmd h1]
    split
    · simp [relocate, Nat.add_comm]
    · rfl
  by_cases h2 : cmd.type = LOOP_END
  · rw [translate_asm_step_loop_end _ cmd h2, translate_asm_step_loop_end _ cmd h2]
    split
    · cases hstk : st.bracketStack with
      | nil =>
        rcases h h2 with hne | hS
        · exact absurd hstk hne
        · simp [relocate, hstk, hS]
      | cons last rest =>
        have hsub : (((A ++ st.code).length : Nat) : Int) - ((last + A.length : Nat) : Int) =
            ((st.code.length : Nat) : Int) - ((last : Nat) : Int) := by
          rw [List.length_append]
          push_cast
          ring
        simp only [relocate, hstk, List.map_cons, List.cons_append, hsub, List.append_assoc,
          sentinel_at_relocate, loop_end_code_relocate]
        split
        · simp [relocate]
        · rfl
    · rfl
  · rw [translate_asm_step_simple _ cmd h1 h2, translate_asm_step_simple _ cmd h1 h2]
    split
    · simp [relocate]
    · rfl

theorem depth_after_step (st st1 : EmitState) (cmd : COMMAND) (rest : List COMMAND)
    (hs : translate_asm_step st cmd = some st1) :
    depth_after (cmd :: rest) st.bracketStack.length =
      depth_after rest st1.bracketStack.length := by
  obtain ⟨_, hc | hc | hc⟩ := translate_asm_step_cases st st1 cmd hs
  · obtain ⟨h1, h2, rfl⟩ := hc
    simp [depth_after, h1, h2]
  · obtain ⟨h1, rfl⟩ := hc
    simp [depth_after, h1]
  · obtain ⟨h2, last, tl, hstk, rfl⟩ := hc
    have h1 : cmd.type ≠ LOOP_START := by rw [h2]; decide
    simp [depth_after, h1, h2, hstk]

theorem translate_asm_loop_relocate (A S : List Nat) (l : List COMMAND) (st : EmitState)
    (k : Nat) (hd : depth_after l st.bracketStack.length = some k) :
    translate_asm_loop l (relocate A S st) = (translate_asm_loop l st).map (relocate A S) := by
  induction l generalizing st with
  | nil => simp [translate_asm_loop]
  | cons cmd rest ih =>
    have hne : cmd.type = LOOP_END → st.bracketStack ≠ [] ∨ S = [] := by
      intro h2
      left
      intro hnil
      have h1 : cmd.type ≠ LOOP_START := by rw [h2]; decide
      simp [depth_after, h1, h2, hnil] at hd
    simp only [translate_asm_loop]
    rw [translate_asm_step_relocate A S st cmd hne]
    cases hs : translate_asm_step st cmd with
    | none => rfl
    | some st1 =>
      simp only [Option.map_some']
      exact ih st1 (by rw [← depth_after_step st st1 cmd rest hs]; exact hd)

theorem translate_asm_loop_relocate_nil (A : List Nat) (l : List COMMAND) (st : EmitState) :
    translate_asm_loop l (relocate A [] st) = (translate_asm_loop l st).map (relocate A []) := by
  cases hd : depth_after l st.bracketStack.length with
  | some k => exact translate_asm_loop_relocate A [] l st k hd
  | none =>
    have h1 : translate_asm_loop l st = none := by
      cases h : translate_asm_loop l st with
      | none => rfl
      | some st2 =>
        rw [translate_asm_loop_depth l st st2 h] at hd
        exact absurd hd (by simp)
    have h2 : translate_asm_loop l (relocate A [] st) = none := by
      cases h : translate_asm_loop l (relocate A [] st) with
      | none => rfl
      | some st2 =>
        have := translate_asm_loop_depth l _ st2 h
        simp only [relocate, List.append_nil, List.length_map] at this
        rw [this] at hd
        exact absurd hd (by simp)
    rw [h1, h2]
    rfl


theorem relocate_init (A : List Nat) :
    relocate A [] { code := [], bracketStack := [] } = { code := A, bracketStack := [] } := by
  simp [relocate]

theorem translate_asm_eq_relative (l : List COMMAND) (a : Nat) :
    translate_asm l a =
      match translate_asm_loop l { code := [], bracketStack := [] } with
      | none => none
      | some st =>
        if st.bracketStack = [] then some (prologue a ++ st.code ++ [0xc3]) else none := by
  unfold translate_asm
  rw [← relocate_init (prologue a), translate_asm_loop_relocate_nil]
  cases translate_asm_loop l { code := [], bracketStack := [] } with
  | none => rfl
  | some st =>
    simp only [Option.map_some', relocate, List.append_nil, List.map_eq_nil_iff]

theorem emit_inv_zero : emit_inv 0 { code := [], bracketStack := [] } := by
  refine ⟨?_, fun e he => by simp at he⟩
  simp [stack_ok]

theorem translate_asm_loop_balanced (l : List COMMAND) (hv : ∀ cmd ∈ l, value_ok cmd)
    (hb : balanced l) :
    ∃ X, translate_asm_loop l { code := [], bracketStack := [] } =
      some { code := X, bracketStack := [] } := by
  obtain ⟨st, hst⟩ := translate_asm_loop_success 0 l { code := [], bracketStack := [] } 0
    emit_inv_zero hv hb
  have hd := translate_asm_loop_depth l _ st hst
  have hs : st.bracketStack = [] := by
    have : some 0 = some st.bracketStack.length := by
      rw [← hd]; exact hb.symm
    exact List.length_eq_zero.1 (Option.some.inj this).symm
  refine ⟨st.code, ?_⟩
  rw [hst, ← hs]

theorem body_eq_of_relative (l : List COMMAND) (a : Nat) (X : List Nat)
    (h : translate_asm_loop l { code := [], bracketStack := [] } =
      some { code := X, bracketStack := [] }) :
    translate_asm l a = some (prologue a ++ X ++ [0xc3]) ∧ body l a = some X := by
  have h1 : translate_asm l a = some (prologue a ++ X ++ [0xc3]) := by
    rw [translate_asm_eq_relative, h]
    simp
  refine ⟨h1, ?_⟩
  rw [body, h1, Option.map_some', List.append_assoc,
    List.drop_left' (prologue_length a), List.dropLast_concat]


/-! ## The emitter: further claims -/

theorem getElem?_append_same_tail (P Q R : List Nat) (i : Nat) (hPQ : P.length = Q.length)
    (hi : P.length ≤ i) : (P ++ R)[i]? = (Q ++ R)[i]? := by
  rw [List.getElem?_append_right hi, List.getElem?_append_right (by omega), hPQ]

/-- C12 (address independence outside the prologue). For every instruction list and any
two tape addresses `a` and `b`, `translate_asm` succeeds for `a` iff it succeeds for `b`,
the two buffers have the same length, and they agree at every index except possibly the
indices 2..9 of the 64-bit immediate. -/
theorem address_independence (l : List COMMAND) (a b : Nat) :
    ((∃ Ba, translate_asm l a = some Ba) ↔ (∃ Bb, translate_asm l b = some Bb)) ∧
      ∀ Ba Bb, translate_asm l a = some Ba → translate_asm l b = some Bb →
        Ba.length = Bb.length ∧ ∀ i, ¬ (2 ≤ i ∧ i ≤ 9) → Ba[i]? = Bb[i]? := by
  rw [translate_asm_eq_relative l a, translate_asm_eq_relative l b]
  cases translate_asm_loop l { code := [], bracketStack := [] } with
  | none => simp
  | some st =>
    by_cases hs : st.bracketStack = []
    · simp only [hs, if_true, Option.some.injEq, exists_eq', true_and]
      intro Ba Bb hBa hBb
      subst hBa hBb
      refine ⟨by simp [prologue_length], fun i hi => ?_⟩
      rw [List.append_assoc, List.append_assoc]
      by_cases h10 : i < 10
      · rw [List.getElem?_append_left (by rw [prologue_length]; exact h10),
          List.getElem?_append_left (by rw [prologue_length]; exact h10)]
        have h01 : i = 0 ∨ i = 1 := by omega
        rcases h01 with rfl | rfl <;> simp [prologue]
      · exact getElem?_append_same_tail _ _ _ i (by simp [prologue_length])
          (by rw [prologue_length]; omega)
    · simp [hs]

/-- Witness of C12 on the folded list of `[-]` with the tape addresses 0 and `2^40`. -/
theorem address_independence_witness :
    ([72, 186, 0, 0, 0, 0, 0, 0, 0, 0, 128, 58, 0, 15, 132, 12, 0, 0, 0, 128, 42, 1,
        128, 58, 0, 15, 133, 244, 255, 255, 255, 195] : List Nat).length =
      ([72, 186, 0, 0, 0, 0, 0, 1, 0, 0, 128, 58, 0, 15, 132, 12, 0, 0, 0, 128, 42, 1,
        128, 58, 0, 15, 133, 244, 255, 255, 255, 195] : List Nat).length ∧
      ∀ i, ¬ (2 ≤ i ∧ i ≤ 9) →
        ([72, 186, 0, 0, 0, 0, 0, 0, 0, 0, 128, 58, 0, 15, 132, 12, 0, 0, 0, 128, 42, 1,
          128, 58, 0, 15, 133, 244, 255, 255, 255, 195] : List Nat)[i]? =
        ([72, 186, 0, 0, 0, 0, 0, 1, 0, 0, 128, 58, 0, 15, 132, 12, 0, 0, 0, 128, 42, 1,
          128, 58, 0, 15, 133, 244, 255, 255, 255, 195] : List Nat)[i]? :=
  (address_independence
      [{ type := 91, value := 1 }, { type := 45, value := 1 }, { type := 93, value := 1 }]
      0 (2 ^ 40)).2 _ _ (by decide) (by decide)


theorem simple_bytes_length (cmd : COMMAND) (h1 : cmd.type ≠ LOOP_START)
    (h2 : cmd.type ≠ LOOP_END) : (simple_bytes cmd).length = cmd_size cmd := by
  unfold simple_bytes cmd_size
  by_cases a1 : cmd.type = DATA_INC
  · simp [a1]
  by_cases a2 : cmd.type = DATA_DEC
  · simp [a2]
  by_cases a3 : cmd.type = DP_INC
  · simp [a3]
  by_cases a4 : cmd.type = DP_DEC
  · simp [a4]
  by_cases a5 : cmd.type = INPUT
  · simp [a5, input_bytes]
  by_cases a6 : cmd.type = OUTPUT
  · simp [a6, output_bytes]
  · simp [a1, a2, a3, a4, a5, a6, h1, h2]

theorem translate_asm_step_length (st st1 : EmitState) (cmd : COMMAND)
    (h : translate_asm_step st cmd = some st1) :
    st1.code.length = st.code.length + cmd_size cmd := by
  obtain ⟨_, hc | hc | hc⟩ := translate_asm_step_cases st st1 cmd h
  · obtain ⟨h1, h2, rfl⟩ := hc
    simp [simple_bytes_length cmd h1 h2]
  · obtain ⟨h1, rfl⟩ := hc
    simp [cmd_size, h1]
  · obtain ⟨h2, last, tl, _, rfl⟩ := hc
    simp [cmd_size, h2, loop_end_code_length]

theorem translate_asm_loop_length (l : List COMMAND) (st st2 : EmitState)
    (h : translate_asm_loop l st = some st2) :
    st2.code.length = st.code.length + (l.map cmd_size).sum := by
  induction l generalizing st with
  | nil =>
    simp only [translate_asm_loop, Option.some.injEq] at h
    simp [h]
  | cons cmd rest ih =>
    obtain ⟨st1, hs, hr⟩ := translate_asm_loop_cons cmd rest st st2 h
    rw [ih st1 hr, translate_asm_step_length st st1 cmd hs]
    simp [Nat.add_assoc]

theorem sum_cmd_size (l : List COMMAND) :
    (l.map cmd_size).sum =
      3 * l.countP (fun c => decide (c.type = DATA_INC ∨ c.type = DATA_DEC)) +
      4 * l.countP (fun c => decide (c.type = DP_INC ∨ c.type = DP_DEC)) +
      22 * l.countP (fun c => decide (c.type = INPUT ∨ c.type = OUTPUT)) +
      9 * l.countP (fun c => decide (c.type = LOOP_START ∨ c.type = LOOP_END)) := by
  induction l with
  | nil => simp
  | cons cmd rest ih =>
    simp only [List.map_cons, List.sum_cons, ih, List.countP_cons]
    unfold cmd_size
    by_cases a1 : cmd.type = DATA_INC
    · simp [a1]; omega
    by_cases a2 : cmd.type = DATA_DEC
    · simp [a2]; omega
    by_cases a3 : cmd.type = DP_INC
    · simp [a3]; omega
    by_cases a4 : cmd.type = DP_DEC
    · simp [a4]; omega
    by_cases a5 : cmd.type = INPUT
    · simp [a5]; omega
    by_cases a6 : cmd.type = OUTPUT
    · simp [a6]; omega
    by_cases a7 : cmd.type = LOOP_START
    · simp [a7]; omega
    by_cases a8 : cmd.type = LOOP_END
    · simp [a8]; omega
    · simp [a1, a2, a3, a4, a5, a6, a7, a8]

/-- C18 (buffer length). When `translate_asm` succeeds, the length of the buffer is
11 + 3 per `DATA_INC`/`DATA_DEC` + 4 per `DP_INC`/`DP_DEC` + 22 per `INPUT`/`OUTPUT` +
9 per `LOOP_START`/`LOOP_END`; no count and no non-opcode instruction enters the formula. -/
theorem buffer_length (l : List COMMAND) (a : Nat) (B : List Nat)
    (hB : translate_asm l a = some B) :
    B.length =
      11 + 3 * l.countP (fun c => decide (c.type = DATA_INC ∨ c.type = DATA_DEC)) +
      4 * l.countP (fun c => decide (c.type = DP_INC ∨ c.type = DP_DEC)) +
      22 * l.countP (fun c => decide (c.type = INPUT ∨ c.type = OUTPUT)) +
      9 * l.countP (fun c => decide (c.type = LOOP_START ∨ c.type = LOOP_END)) := by
  obtain ⟨st, hst, _, rfl⟩ := (translate_asm_eq_some l a B).1 hB
  have := translate_asm_loop_length l _ st hst
  rw [sum_cmd_size, prologue_length] at this
  rw [List.length_append, this]
  simp only [List.length_cons, List.length_nil]
  omega

/-- Witness of C18 on the folded list of `+[-]>,.` with a space kept as a non-opcode
instruction: 11 + 3 * 2 + 4 * 1 + 22 * 2 + 9 * 2 = 83 bytes. -/
theorem buffer_length_witness :
    ([72, 186, 0, 0, 0, 0, 0, 0, 0, 0, 128, 2, 5, 128, 58, 0, 15, 132, 12, 0, 0, 0, 128, 42, 1,
        128, 58, 0, 15, 133, 244, 255, 255, 255, 72, 131, 194, 1,
        184, 0, 0, 0, 0, 191, 0, 0, 0, 0, 72, 137, 214, 82, 186, 1, 0, 0, 0, 15, 5, 90,
        184, 1, 0, 0, 0, 191, 1, 0, 0, 0, 72, 137, 214, 82, 186, 1, 0, 0, 0, 15, 5, 90,
        195] : List Nat).length = 83 :=
  buffer_length
    [{ type := 43, value := 5 }, { type := 91, value := 1 }, { type := 45, value := 1 },
     { type := 93, value := 1 }, { type := 32, value := 1 }, { type := 62, value := 1 },
     { type := 44, value := 1 }, { type := 46, value := 1 }] 0 _ (by decide)


theorem translate_asm_loop_filter (l : List COMMAND) (st : EmitState)
    (hv : ∀ cmd ∈ l, value_ok cmd) :
    translate_asm_loop (l.filter (fun cmd => decide (is_opcode cmd.type))) st =
      translate_asm_loop l st := by
  induction l generalizing st with
  | nil => rfl
  | cons cmd rest ih =>
    have hrest : ∀ x ∈ rest, value_ok x := fun x hx => hv x (by simp [hx])
    by_cases ho : is_opcode cmd.type
    · rw [List.filter_cons_of_pos (by simpa using ho)]
      simp only [translate_asm_loop]
      cases translate_asm_step st cmd with
      | none => rfl
      | some st1 => exact ih st1 hrest
    · rw [List.filter_cons_of_neg (by simpa using ho), ih st hrest]
      have hno : ¬ (is_arith cmd.type ∨ is_control cmd.type) := ho
      simp only [is_arith, is_control, not_or] at hno
      obtain ⟨⟨a1, a2, a3, a4⟩, a5, a6, a7, a8⟩ := hno
      have hstep : translate_asm_step st cmd = some st := by
        rw [translate_asm_step_simple st cmd a7 a8, if_pos (hv cmd (by simp))]
        simp [simple_bytes, a1, a2, a3, a4, a5, a6]
      simp only [translate_asm_loop, hstep]

/-- C14 (non-opcode instructions are comments for the emitter). For an instruction list
whose counts are all in 1..127 and any tape address, `translate_asm` gives the same
outcome and the same buffer on the list with every instruction removed whose kind is not
one of the eight opcodes. -/
theorem non_opcode_commands_skipped (l : List COMMAND) (a : Nat)
    (hv : ∀ cmd ∈ l, 1 ≤ cmd.value ∧ cmd.value ≤ 127) :
    translate_asm (l.filter (fun cmd => decide (is_opcode cmd.type))) a = translate_asm l a := by
  have hv2 : ∀ cmd ∈ l, value_ok cmd := fun cmd hc =>
    ⟨by have := hv cmd hc; show (0 : Int) < cmd.value; omega, (hv cmd hc).2⟩
  unfold translate_asm
  rw [translate_asm_loop_filter l _ hv2]

/-- Witness of C14 on the list of `+ +` with its space kept as an instruction of kind 32. -/
theorem non_opcode_commands_skipped_witness :
    translate_asm ([{ type := 43, value := 1 }, { type := 32, value := 1 },
        { type := 43, value := 1 }].filter (fun cmd => decide (is_opcode cmd.type))) 0 =
      translate_asm [{ type := 43, value := 1 }, { type := 32, value := 1 },
        { type := 43, value := 1 }] 0 :=
  non_opcode_commands_skipped [{ type := 43, value := 1 }, { type := 32, value := 1 },
    { type := 43, value := 1 }] 0 (by decide)

theorem header_at_congr (code1 code2 : List Nat) (e : Nat)
    (h : ∀ i, e ≤ i → i < e + 5 → code2[i]? = code1[i]?) (hs : header_at code1 e) :
    header_at code2 e := by
  unfold header_at at *
  rw [h e (by omega) (by omega), h (e + 1) (by omega) (by omega),
    h (e + 2) (by omega) (by omega), h (e + 3) (by omega) (by omega),
    h (e + 4) (by omega) (by omega)]
  exact hs

theorem header_at_step (lo : Nat) (st st1 : EmitState) (cmd : COMMAND) (hinv : emit_inv lo st)
    (hh : ∀ e ∈ st.bracketStack, header_at st.code e)
    (h : translate_asm_step st cmd = some st1) :
    ∀ e ∈ st1.bracketStack, header_at st1.code e := by
  obtain ⟨hok, _⟩ := hinv
  have hmem := stack_ok_mem lo _ _ hok
  obtain ⟨_, hc | hc | hc⟩ := translate_asm_step_cases st st1 cmd h
  · obtain ⟨_, _, rfl⟩ := hc
    intro e he
    have := (hmem e he).2
    exact header_at_congr st.code _ e
      (fun i _ _ => List.getElem?_append_left (by omega)) (hh e he)
  · obtain ⟨_, rfl⟩ := hc
    intro e he
    rcases List.mem_cons.1 he with rfl | he
    · unfold header_at
      rw [List.getElem?_append_right (by omega), List.getElem?_append_right (by omega),
        List.getElem?_append_right (by omega), List.getElem?_append_right (by omega),
        List.getElem?_append_right (by omega)]
      simp
    · have := (hmem e he).2
      exact header_at_congr st.code _ e
        (fun i _ _ => List.getElem?_append_left (by omega)) (hh e he)
  · obtain ⟨_, last, tl, hstk, rfl⟩ := hc
    rw [hstk] at hok hh
    intro e he
    have h1 := (stack_ok_mem lo tl last hok.2 e he).2
    have h2 := hok.1
    refine header_at_congr st.code _ e (fun i _ _ => ?_) (hh e (by simp [he]))
    exact loop_end_code_frame _ _ _ (by omega) (by omega)

theorem header_at_loop (lo : Nat) (l : List COMMAND) (st st2 : EmitState)
    (hinv : emit_inv lo st) (hh : ∀ e ∈ st.bracketStack, header_at st.code e)
    (h : translate_asm_loop l st = some st2) :
    ∀ e ∈ st2.bracketStack, header_at st2.code e := by
  induction l generalizing st with
  | nil =>
    simp only [translate_asm_loop, Option.some.injEq] at h
    exact h ▸ hh
  | cons cmd rest ih =>
    obtain ⟨st1, hs, hr⟩ := translate_asm_loop_cons cmd rest st st2 h
    exact ih st1 (emit_inv_step lo st st1 cmd hinv hs) (header_at_step lo st st1 cmd hinv hh hs) hr


/-- C13 (the sentinel check never fails). Let a prefix `pre` of an instruction list be
processed by `translate_asm`, leaving `last` on top of the bracket stack, and let the next
command be a `LOOP_END`. Then the `[` sequence at `last` lies inside the code buffer, the
bytes at `last+5..last+8` are the sentinel `0x12 0x34 0x56 0x78`, before and after the 9
bytes of the `]` are appended, so the four assertions hold, and with a count in 1..127
the step succeeds, patching the placeholder and popping the stack. -/
theorem sentinel_check_never_fails (pre : List COMMAND) (cmd : COMMAND) (a : Nat)
    (st : EmitState) (last : Nat) (rest : List Nat)
    (hrun : translate_asm_loop pre { code := prologue a, bracketStack := [] } = some st)
    (hstk : st.bracketStack = last :: rest) (hend : cmd.type = LOOP_END) :
    last + 8 < st.code.length ∧ header_at st.code last ∧ sentinel_at st.code last ∧
      sentinel_at
        (st.code ++ [0x80, 0x3a, 0x00, 0x0f, 0x85] ++
          (List.range 4).map (fun i =>
            byte_at (to_ulong (-(to_long (to_ulong ((st.code.length : Int) - (last : Int)))))) i))
        last ∧
      (1 ≤ cmd.value ∧ cmd.value ≤ 127 →
        translate_asm_step st cmd =
          some { code := loop_end_code st.code last, bracketStack := rest }) := by
  have hinv := emit_inv_loop 10 pre _ st (emit_inv_init a) hrun
  have hhead := header_at_loop 10 pre _ st (emit_inv_init a)
    (fun e he => by simp at he) hrun
  obtain ⟨hok, hsen⟩ := hinv
  rw [hstk] at hok hsen hhead
  have hs := hsen last (by simp)
  have hs1 : sentinel_at
      (st.code ++ [0x80, 0x3a, 0x00, 0x0f, 0x85] ++
        (List.range 4).map (fun i =>
          byte_at (to_ulong (-(to_long (to_ulong ((st.code.length : Int) - (last : Int)))))) i))
      last := by
    rw [List.append_assoc]
    exact sentinel_at_append st.code _ last hok.1 hs
  refine ⟨by have := hok.1; omega, hhead last (by simp), hs, hs1, fun hv => ?_⟩
  have hv2 : value_ok cmd := ⟨by show (0 : Int) < cmd.value; omega, hv.2⟩
  rw [translate_asm_step_loop_end st cmd hend, if_pos hv2, hstk]
  simp only [hs1, if_true]

/-- Witness of C13 on the list of `+[-]`: after `+[-` the stack holds offset 13 and the
`]` finds the sentinel at offsets 18..21. -/
theorem sentinel_check_never_fails_witness :
    translate_asm_step
        { code := [72, 186, 0, 0, 0, 0, 0, 0, 0, 0, 128, 2, 1, 128, 58, 0, 15, 132,
            18, 52, 86, 120, 128, 42, 1], bracketStack := [13] }
        { type := 93, value := 1 } =
      some { code := loop_end_code [72, 186, 0, 0, 0, 0, 0, 0, 0, 0, 128, 2, 1, 128, 58, 0, 15,
          132, 18, 52, 86, 120, 128, 42, 1] 13, bracketStack := [] } :=
  (sentinel_check_never_fails
    [{ type := 43, value := 1 }, { type := 91, value := 1 }, { type := 45, value := 1 }]
    { type := 93, value := 1 } 0
    { code := [72, 186, 0, 0, 0, 0, 0, 0, 0, 0, 128, 2, 1, 128, 58, 0, 15, 132,
        18, 52, 86, 120, 128, 42, 1], bracketStack := [13] } 13 []
    (by decide) (by decide) (by decide)).2.2.2.2 (by decide)

/-- C15 (patching is the only rewrite of emitted bytes). Let the code buffer be `B` after
the list `l` is processed and `B1` after `l` followed by `c`. Then `B1` is at least as long
as `B`; when `c` is not a `LOOP_END`, `B` is a prefix of `B1`; and when `c` is a
`LOOP_END`, the top `last` of the bracket stack is the offset of a `[` sequence inside
`B` and `B1` agrees with `B` at every index below the length of `B` except possibly
`last+5..last+8`. -/
theorem patching_only_rewrite (l : List COMMAND) (c : COMMAND) (a : Nat) (st st1 : EmitState)
    (hrun : translate_asm_loop l { code := prologue a, bracketStack := [] } = some st)
    (hstep : translate_asm_step st c = some st1) :
    translate_asm_loop (l ++ [c]) { code := prologue a, bracketStack := [] } = some st1 ∧
      st.code.length ≤ st1.code.length ∧
      (c.type ≠ LOOP_END → st.code <+: st1.code) ∧
      (c.type = LOOP_END → ∃ last rest, st.bracketStack = last :: rest ∧
        last + 9 ≤ st.code.length ∧ header_at st.code last ∧
        ∀ i, i < st.code.length → ¬ (last + 5 ≤ i ∧ i ≤ last + 8) →
          st1.code[i]? = st.code[i]?) := by
  have hinv := emit_inv_loop 10 l _ st (emit_inv_init a) hrun
  have hhead := header_at_loop 10 l _ st (emit_inv_init a)
    (fun e he => by simp at he) hrun
  have hall : translate_asm_loop (l ++ [c]) { code := prologue a, bracketStack := [] } =
      some st1 := by
    rw [translate_asm_loop_append, hrun]
    simp only [translate_asm_loop, hstep]
  have hlen := translate_asm_step_length st st1 c hstep
  refine ⟨hall, by omega, ?_, ?_⟩
  · intro hne
    obtain ⟨_, hc | hc | hc⟩ := translate_asm_step_cases st st1 c hstep
    · obtain ⟨_, _, rfl⟩ := hc
      exact List.prefix_append _ _
    · obtain ⟨_, rfl⟩ := hc
      exact List.prefix_append _ _
    · exact absurd hc.1 hne
  · intro he
    obtain ⟨_, hc | hc | hc⟩ := translate_asm_step_cases st st1 c hstep
    · exact absurd he hc.2.1
    · rw [he] at hc; exact absurd hc.1 (by decide)
    · obtain ⟨_, last, tl, hstk, rfl⟩ := hc
      have hok := hinv.1
      rw [hstk] at hok
      refine ⟨last, tl, hstk, hok.1, hhead last (by simp [hstk]), fun i hi hp => ?_⟩
      exact loop_end_code_frame _ _ _ hi (by omega)

set_option maxRecDepth 8000 in
/-- Witness of C15 on the list of `+[-` followed by `]`: the only bytes of the 25 already
emitted that change are those at offsets 18..21. -/
theorem patching_only_rewrite_witness :
    ∃ last rest, ([13] : List Nat) = last :: rest ∧
      last + 9 ≤ ([72, 186, 0, 0, 0, 0, 0, 0, 0, 0, 128, 2, 1, 128, 58, 0, 15, 132,
        18, 52, 86, 120, 128, 42, 1] : List Nat).length ∧
      header_at [72, 186, 0, 0, 0, 0, 0, 0, 0, 0, 128, 2, 1, 128, 58, 0, 15, 132,
        18, 52, 86, 120, 128, 42, 1] last ∧
      ∀ i, i < ([72, 186, 0, 0, 0, 0, 0, 0, 0, 0, 128, 2, 1, 128, 58, 0, 15, 132,
          18, 52, 86, 120, 128, 42, 1] : List Nat).length →
        ¬ (last + 5 ≤ i ∧ i ≤ last + 8) →
        ([72, 186, 0, 0, 0, 0, 0, 0, 0, 0, 128, 2, 1, 128, 58, 0, 15, 132,
          12, 0, 0, 0, 128, 42, 1, 128, 58, 0, 15, 133, 244, 255, 255, 255] : List Nat)[i]? =
        ([72, 186, 0, 0, 0, 0, 0, 0, 0, 0, 128, 2, 1, 128, 58, 0, 15, 132,
          18, 52, 86, 120, 128, 42, 1] : List Nat)[i]? :=
  (patching_only_rewrite
    [{ type := 43, value := 1 }, { type := 91, value := 1 }, { type := 45, value := 1 }]
    { type := 93, value := 1 } 0
    { code := [72, 186, 0, 0, 0, 0, 0, 0, 0, 0, 128, 2, 1, 128, 58, 0, 15, 132,
        18, 52, 86, 120, 128, 42, 1], bracketStack := [13] }
    { code := [72, 186, 0, 0, 0, 0, 0, 0, 0, 0, 128, 2, 1, 128, 58, 0, 15, 132,
        12, 0, 0, 0, 128, 42, 1, 128, 58, 0, 15, 133, 244, 255, 255, 255], bracketStack := [] }
    (by decide) (by decide)).2.2.2 (by decide)


theorem forward_value (n : Nat) :
    to_ulong (to_long (to_ulong (n : Int))) = n % 2 ^ 64 := by
  unfold to_ulong to_long
  split <;> omega

theorem backward_value (n : Nat) :
    to_ulong (-(to_long (to_ulong (n : Int)))) = (2 ^ 64 - n % 2 ^ 64) % 2 ^ 64 := by
  unfold to_ulong to_long
  split <;> omega

theorem bytes4_eq (u n : Nat) (h : u % 2 ^ 32 = n % 2 ^ 32) :
    (List.range 4).map (fun i => byte_at u i) = le_bytes32 n := by
  simp only [show List.range 4 = [0, 1, 2, 3] from rfl, List.map_cons, List.map_nil, byte_at_eq,
    le_bytes32]
  norm_num
  refine ⟨?_, ?_, ?_, ?_⟩ <;> omega

theorem patch4_header (X : List Nat) (a0 a1 a2 a3 a4 s0 s1 s2 s3 v : Nat) :
    patch4 (a0 :: a1 :: a2 :: a3 :: a4 :: s0 :: s1 :: s2 :: s3 :: X) 5 v =
      [a0, a1, a2, a3, a4] ++ (List.range 4).map (fun i => byte_at v i) ++ X := by
  rfl

theorem loop_end_code_zero (X : List Nat) :
    loop_end_code ([0x80, 0x3a, 0x00, 0x0f, 0x84, 0x12, 0x34, 0x56, 0x78] ++ X) 0 =
      [0x80, 0x3a, 0x00, 0x0f, 0x84] ++ le_bytes32 (X.length + 9) ++ X ++
        [0x80, 0x3a, 0x00, 0x0f, 0x85] ++ le_bytes32 (2 ^ 32 - (X.length + 9) % 2 ^ 32) := by
  have hlen : ((([0x80, 0x3a, 0x00, 0x0f, 0x84, 0x12, 0x34, 0x56, 0x78] ++ X).length : Nat) : Int) -
      ((0 : Nat) : Int) = ((X.length + 9 : Nat) : Int) := by
    simp only [List.length_append, List.length_cons, List.length_nil]
    omega
  unfold loop_end_code
  rw [hlen, forward_value, backward_value]
  simp only [List.cons_append, List.nil_append, Nat.zero_add, patch4_header]
  rw [bytes4_eq (( X.length + 9) % 2 ^ 64) (X.length + 9) (by omega),
    bytes4_eq ((2 ^ 64 - (X.length + 9) % 2 ^ 64) % 2 ^ 64)
      (2 ^ 32 - (X.length + 9) % 2 ^ 32) (by omega)]
  simp


theorem translate_asm_loop_wrapped (l : List COMMAND) (lb rb : COMMAND) (X : List Nat)
    (h : translate_asm_loop l { code := [], bracketStack := [] } =
      some { code := X, bracketStack := [] })
    (hb : balanced l) (hlb : lb.type = LOOP_START) (hrb : rb.type = LOOP_END)
    (hvlb : value_ok lb) (hvrb : value_ok rb) :
    translate_asm_loop (lb :: (l ++ [rb])) { code := [], bracketStack := [] } =
      some (EmitState.mk
        ([0x80, 0x3a, 0x00, 0x0f, 0x84] ++ le_bytes32 (X.length + 9) ++ X ++
          [0x80, 0x3a, 0x00, 0x0f, 0x85] ++ le_bytes32 (2 ^ 32 - (X.length + 9) % 2 ^ 32))
        []) := by
  have hstep1 : translate_asm_step { code := [], bracketStack := [] } lb =
      some (EmitState.mk [0x80, 0x3a, 0x00, 0x0f, 0x84, 0x12, 0x34, 0x56, 0x78] [0]) := by
    rw [translate_asm_step_loop_start _ lb hlb, if_pos hvlb]
    rfl
  have hreloc : EmitState.mk [0x80, 0x3a, 0x00, 0x0f, 0x84, 0x12, 0x34, 0x56, 0x78] [0] =
      relocate [0x80, 0x3a, 0x00, 0x0f, 0x84, 0x12, 0x34, 0x56, 0x78] [0]
        { code := [], bracketStack := [] } := by
    simp [relocate]
  have hmid : translate_asm_loop l
      (EmitState.mk [0x80, 0x3a, 0x00, 0x0f, 0x84, 0x12, 0x34, 0x56, 0x78] [0]) =
      some (EmitState.mk ([0x80, 0x3a, 0x00, 0x0f, 0x84, 0x12, 0x34, 0x56, 0x78] ++ X) [0]) := by
    rw [hreloc, translate_asm_loop_relocate _ _ l { code := [], bracketStack := [] } 0 hb, h]
    simp [relocate]
  have hsen : sentinel_at
      (([0x80, 0x3a, 0x00, 0x0f, 0x84, 0x12, 0x34, 0x56, 0x78] ++ X) ++
        [0x80, 0x3a, 0x00, 0x0f, 0x85] ++
        (List.range 4).map (fun i => byte_at (to_ulong (-(to_long (to_ulong
          (((([0x80, 0x3a, 0x00, 0x0f, 0x84, 0x12, 0x34, 0x56, 0x78] ++ X).length : Nat) : Int) -
            ((0 : Nat) : Int)))))) i)) 0 := by
    unfold sentinel_at
    simp
  have hstep2 : translate_asm_step
      (EmitState.mk ([0x80, 0x3a, 0x00, 0x0f, 0x84, 0x12, 0x34, 0x56, 0x78] ++ X) [0]) rb =
      some (EmitState.mk
        (loop_end_code ([0x80, 0x3a, 0x00, 0x0f, 0x84, 0x12, 0x34, 0x56, 0x78] ++ X) 0) []) := by
    rw [translate_asm_step_loop_end _ rb hrb, if_pos hvrb]
    simp only [hsen, if_true]
  simp only [translate_asm_loop, hstep1]
  rw [translate_asm_loop_append, hmid]
  simp only [translate_asm_loop, hstep2, loop_end_code_zero]

/-- C17 (emission is compositional and position-independent for balanced code). With
`body l` the buffer of `translate_asm` without its 10-byte prologue and its final `ret`,
for balanced lists `l1`, `l2` with counts in 1..127 `translate_asm (l1 ++ l2)` succeeds and
`body (l1 ++ l2) = body l1 ++ body l2`; and the body of `l1` put between a `LOOP_START` and
a `LOOP_END` is `80 3A 00 0F 84`, the little-endian 32 bits of `len (body l1) + 9`,
`body l1`, `80 3A 00 0F 85`, and the little-endian 32 bits of the two's complement of
`len (body l1) + 9`. -/
theorem emission_compositional (l1 l2 : List COMMAND) (lb rb : COMMAND) (a : Nat)
    (hv1 : ∀ cmd ∈ l1, 1 ≤ cmd.value ∧ cmd.value ≤ 127)
    (hv2 : ∀ cmd ∈ l2, 1 ≤ cmd.value ∧ cmd.value ≤ 127)
    (hb1 : balanced l1) (hb2 : balanced l2)
    (hlb : lb.type = LOOP_START) (hrb : rb.type = LOOP_END)
    (hvlb : 1 ≤ lb.value ∧ lb.value ≤ 127) (hvrb : 1 ≤ rb.value ∧ rb.value ≤ 127) :
    ∃ b1 b2, body l1 a = some b1 ∧ body l2 a = some b2 ∧
      (∃ B, translate_asm (l1 ++ l2) a = some B) ∧
      body (l1 ++ l2) a = some (b1 ++ b2) ∧
      body (lb :: (l1 ++ [rb])) a =
        some ([0x80, 0x3a, 0x00, 0x0f, 0x84] ++ le_bytes32 (b1.length + 9) ++ b1 ++
          [0x80, 0x3a, 0x00, 0x0f, 0x85] ++ le_bytes32 (2 ^ 32 - (b1.length + 9) % 2 ^ 32)) := by
  have ok : ∀ c : COMMAND, 1 ≤ c.value ∧ c.value ≤ 127 → value_ok c := fun c hc =>
    ⟨by show (0 : Int) < c.value; omega, hc.2⟩
  obtain ⟨X1, h1⟩ := translate_asm_loop_balanced l1 (fun c hc => ok c (hv1 c hc)) hb1
  obtain ⟨X2, h2⟩ := translate_asm_loop_balanced l2 (fun c hc => ok c (hv2 c hc)) hb2
  have h12 : translate_asm_loop (l1 ++ l2) { code := [], bracketStack := [] } =
      some { code := X1 ++ X2, bracketStack := [] } := by
    rw [translate_asm_loop_append, h1]
    simp only []
    rw [← relocate_init X1, translate_asm_loop_relocate_nil, h2]
    simp [relocate]
  have hw := translate_asm_loop_wrapped l1 lb rb X1 h1 hb1 hlb hrb (ok lb hvlb) (ok rb hvrb)
  exact ⟨X1, X2, (body_eq_of_relative l1 a X1 h1).2, (body_eq_of_relative l2 a X2 h2).2,
    ⟨_, (body_eq_of_relative (l1 ++ l2) a _ h12).1⟩,
    (body_eq_of_relative (l1 ++ l2) a _ h12).2,
    (body_eq_of_relative (lb :: (l1 ++ [rb])) a _ hw).2⟩

/-- Witness of C17 with `l1` the list of `-`, `l2` the list of `[>]` and the brackets
`[`, `]`, at tape address 0. -/
theorem emission_compositional_witness :
    ∃ b1 b2, body [{ type := 45, value := 1 }] 0 = some b1 ∧
      body [{ type := 91, value := 1 }, { type := 62, value := 1 },
        { type := 93, value := 1 }] 0 = some b2 ∧
      (∃ B, translate_asm ([{ type := 45, value := 1 }] ++
        [{ type := 91, value := 1 }, { type := 62, value := 1 },
          { type := 93, value := 1 }]) 0 = some B) ∧
      body ([{ type := 45, value := 1 }] ++
        [{ type := 91, value := 1 }, { type := 62, value := 1 },
          { type := 93, value := 1 }]) 0 = some (b1 ++ b2) ∧
      body ({ type := 91, value := 1 } ::
          ([{ type := 45, value := 1 }] ++ [{ type := 93, value := 1 }])) 0 =
        some ([0x80, 0x3a, 0x00, 0x0f, 0x84] ++ le_bytes32 (b1.length + 9) ++ b1 ++
          [0x80, 0x3a, 0x00, 0x0f, 0x85] ++ le_bytes32 (2 ^ 32 - (b1.length + 9) % 2 ^ 32)) :=
  emission_compositional [{ type := 45, value := 1 }]
    [{ type := 91, value := 1 }, { type := 62, value := 1 }, { type := 93, value := 1 }]
    { type := 91, value := 1 } { type := 93, value := 1 } 0
    (by decide) (by decide) (by decide) (by decide) (by decide) (by decide) (by decide)
    (by decide)

end BrainfuckJIT
